import Mathlib

set_option maxRecDepth 100000
set_option maxHeartbeats 2000000

/-!
Verification of the mee6 level library (src/mee6/src/lib.rs).

The Rust source computes levels from XP entirely in IEEE-754 binary64
(f64) arithmetic.  We model every f64 value as a dyadic rational m * 2^e
(structure FP below), and every f64 operation as the exact rational
operation followed by rounding to 53 significant bits, round to nearest,
ties to even.  This is exactly IEEE-754 binary64 for all finite values
away from overflow and subnormal underflow; every quantity reachable in
this program lies in [2^-120, 2^70], far inside that range, so the model
is bit-exact for the program (the model was additionally validated
against a large sample of hardware binary64 computations).  Division by
zero (which would give NaN/inf in f64) is mapped to 0; the theorems below
only use division on denominators proved nonzero, matching the program.

All computational definitions use only natural/integer arithmetic and
structural recursion, so the kernel can evaluate them; the rational-level
rounding function round64Q is used for specification and proofs and is
connected to the integer implementation by bridge lemmas.
-/

/-- Fuel-driven helper for the bit length of a natural number. -/
def bitLenAux : ℕ → ℕ → ℕ
  | 0, _ => 0
  | f+1, n => if n = 0 then 0 else bitLenAux f (n / 2) + 1

/-- Bit length of a natural number: number of binary digits (0 for 0). -/
def bitLen (n : ℕ) : ℕ := bitLenAux n n

/-- A finite binary64 value, represented as m * 2^e.  The representation is
not required to be normalized; the value is what matters. -/
structure FP where
  m : ℤ
  e : ℤ
  deriving DecidableEq, Repr

/-- The rational value denoted by an FP. -/
def val (a : FP) : ℚ := a.m * (2:ℚ)^a.e

/-- The binary exponent (floor of log2) of the positive rational n/d,
computed from bit lengths plus one comparison. -/
def rawExp (n d : ℕ) : ℤ :=
  if d * 2^(((bitLen n:ℤ) - bitLen d).toNat) ≤ n * 2^(((bitLen d:ℤ) - bitLen n).toNat)
  then (bitLen n:ℤ) - bitLen d
  else (bitLen n:ℤ) - bitLen d - 1

/-- The 53-bit significand of n/d, rounded to nearest with ties to even. -/
def rawSig (n d : ℕ) : ℕ :=
  let t : ℤ := 52 - rawExp n d
  let N := n * 2^(t.toNat)
  let D := d * 2^((-t).toNat)
  let q := N / D
  let r := N % D
  if 2*r < D then q else if D < 2*r then q+1 else if q % 2 = 0 then q else q+1

/-- Round the positive rational (n/d) * 2^e (n, d positive) to 53
significant bits, round to nearest, ties to even, and attach sign sgn.
This is the single rounding primitive: all f64 operations reduce to it. -/
def roundPosRaw (n d : ℕ) (sgn : ℤ) (e : ℤ) : FP :=
  ⟨sgn * rawSig n d, rawExp n d + e - 52⟩

/-- Round m * 2^e to a binary64 value. -/
def rnd (m : ℤ) (e : ℤ) : FP :=
  if m = 0 then ⟨0, 0⟩ else roundPosRaw m.natAbs 1 m.sign e

/-- f64 addition: exact sum, then rounding. -/
def fadd (a b : FP) : FP :=
  let e := min a.e b.e
  rnd (a.m * 2^((a.e - e).toNat) + b.m * 2^((b.e - e).toNat)) e

/-- f64 subtraction. -/
def fsub (a b : FP) : FP := fadd a ⟨-b.m, b.e⟩

/-- f64 multiplication: exact product, then rounding. -/
def fmul (a b : FP) : FP := rnd (a.m * b.m) (a.e + b.e)

/-- f64 division: correctly rounded quotient (0 when the divisor is 0;
the program paths we verify never divide by 0). -/
def fdiv (a b : FP) : FP :=
  if a.m = 0 ∨ b.m = 0 then ⟨0, 0⟩
  else roundPosRaw a.m.natAbs b.m.natAbs (a.m.sign * b.m.sign) (a.e - b.e)

/-- f64 comparison a <= b, computed on the integer representation. -/
def FP.le (a b : FP) : Prop :=
  a.m * 2^((a.e - min a.e b.e).toNat) ≤ b.m * 2^((b.e - min a.e b.e).toNat)

instance (a b : FP) : Decidable (FP.le a b) :=
  inferInstanceAs (Decidable (_ ≤ _))

/-- Conversion of a nonnegative integer to f64 (u64 as f64 in Rust, and
also f64::from(i32) for the nonnegative i32 loop counter: both round to
nearest; the i32 conversion is exact because i32 fits in 53 bits). -/
def FP.ofNat (n : ℕ) : FP := rnd n 0

/-- The Rust cast expr as u8 on an f64: truncation toward zero with
saturation at 0 and 255 (NaN cannot arise on the verified paths). -/
def FP.toU8 (a : FP) : ℕ :=
  if a.m < 0 then 0
  else
    let f := if 0 ≤ a.e then a.m.toNat * 2^(a.e.toNat) else a.m.toNat / 2^((-a.e).toNat)
    if 256 ≤ f then 255 else f

/-! ## Specification-level rounding on ℚ

round64Q is the mathematical round-to-nearest-even to 53 significant
bits.  It is the specification of the integer-level primitive above.  -/

/-- Round a rational to the nearest integer, ties to even. -/
def rne (x : ℚ) : ℤ :=
  if x - ⌊x⌋ < 1/2 then ⌊x⌋
  else if (1:ℚ)/2 < x - ⌊x⌋ then ⌊x⌋ + 1
  else if ⌊x⌋ % 2 = 0 then ⌊x⌋ else ⌊x⌋ + 1

/-- Round a positive rational to 53 significant bits (nearest, ties even). -/
def roundPosQ (q : ℚ) : ℚ :=
  (rne (q * (2:ℚ)^(52 - Int.log 2 q)) : ℚ) * (2:ℚ)^(Int.log 2 q - 52)

/-- Round any rational to 53 significant bits (nearest, ties even). -/
def round64Q (q : ℚ) : ℚ :=
  if 0 < q then roundPosQ q else if q < 0 then -roundPosQ (-q) else 0

/-- Representable values: dyadic rationals with a 53-bit significand.
These are exactly the possible results of round64Q (ignoring the exponent
range, which the program never leaves). -/
def Rep53 (x : ℚ) : Prop := ∃ m : ℤ, ∃ k : ℤ, x = m * (2:ℚ)^k ∧ m.natAbs ≤ 2^53

/-! ## Bit length lemmas -/

theorem bitLenAux_zero : ∀ f, bitLenAux f 0 = 0 := by
  intro f
  cases f <;> simp [bitLenAux]

theorem bitLenAux_spec : ∀ f n, n ≤ f → 0 < n →
    2^(bitLenAux f n - 1) ≤ n ∧ n < 2^(bitLenAux f n) := by
  intro f
  induction f with
  | zero => intro n h h0; omega
  | succ f ih =>
    intro n h h0
    have hn0 : n ≠ 0 := Nat.pos_iff_ne_zero.mp h0
    simp only [bitLenAux, hn0, if_false]
    by_cases h2 : n / 2 = 0
    · have h1 : n = 1 := by omega
      subst h1
      simp [bitLenAux_zero]
    · have hle : n / 2 ≤ f := by omega
      obtain ⟨ihl, ihr⟩ := ih (n / 2) hle (Nat.pos_iff_ne_zero.mpr h2)
      have hb1 : 1 ≤ bitLenAux f (n / 2) := by
        by_contra hc
        have : bitLenAux f (n / 2) = 0 := by omega
        rw [this] at ihr; omega
      constructor
      · have : 2^(bitLenAux f (n / 2) - 1) * 2 ≤ (n / 2) * 2 :=
          Nat.mul_le_mul_right 2 ihl
        calc 2^(bitLenAux f (n / 2) + 1 - 1) = 2^(bitLenAux f (n / 2) - 1) * 2 := by
              rw [← Nat.pow_succ]
              congr 1
              omega
          _ ≤ (n / 2) * 2 := this
          _ ≤ n := by omega
      · calc n < (n / 2 + 1) * 2 := by omega
          _ ≤ 2^(bitLenAux f (n / 2)) * 2 := by
              have : n / 2 + 1 ≤ 2^(bitLenAux f (n / 2)) := ihr
              exact Nat.mul_le_mul_right 2 this
          _ = 2^(bitLenAux f (n / 2) + 1) := (Nat.pow_succ 2 _).symm

theorem bitLen_bounds {n : ℕ} (h : 0 < n) :
    2^(bitLen n - 1) ≤ n ∧ n < 2^(bitLen n) :=
  bitLenAux_spec n n le_rfl h

theorem bitLen_pos {n : ℕ} (h : 0 < n) : 1 ≤ bitLen n := by
  by_contra hc
  have h0 : bitLen n = 0 := by omega
  have := (bitLen_bounds h).2
  rw [h0] at this
  omega

/-! ## Lemmas about rne -/

theorem rne_intCast (n : ℤ) : rne (n : ℚ) = n := by
  simp [rne]

theorem rne_ge_floor (x : ℚ) : ⌊x⌋ ≤ rne x := by
  unfold rne
  split
  · exact le_rfl
  · split
    · omega
    · split
      · exact le_rfl
      · omega

theorem rne_le_floor_add_one (x : ℚ) : rne x ≤ ⌊x⌋ + 1 := by
  unfold rne
  split
  · omega
  · split
    · exact le_rfl
    · split
      · omega
      · exact le_rfl

theorem rne_le (x : ℚ) : (rne x : ℚ) ≤ x + 1/2 := by
  have hf : (⌊x⌋ : ℚ) ≤ x := Int.floor_le x
  unfold rne
  split
  · linarith
  · rename_i h1
    push_neg at h1
    split
    · push_cast; linarith
    · rename_i h2
      push_neg at h2
      have hx : x - ⌊x⌋ = 1/2 := le_antisymm h2 h1
      split
      · linarith
      · push_cast; linarith

theorem rne_ge (x : ℚ) : x - 1/2 ≤ (rne x : ℚ) := by
  have hf : x - 1 < (⌊x⌋ : ℚ) := Int.sub_one_lt_floor x
  unfold rne
  split
  · rename_i h1; linarith
  · rename_i h1
    push_neg at h1
    split
    · push_cast; linarith
    · split
      · linarith
      · push_cast; linarith

theorem rne_mono {x y : ℚ} (h : x ≤ y) : rne x ≤ rne y := by
  rcases lt_or_le ⌊x⌋ ⌊y⌋ with hf | hf
  · calc rne x ≤ ⌊x⌋ + 1 := rne_le_floor_add_one x
      _ ≤ ⌊y⌋ := by omega
      _ ≤ rne y := rne_ge_floor y
  · have hfe : ⌊x⌋ = ⌊y⌋ := le_antisymm (Int.floor_le_floor h) hf
    have hr : x - (⌊y⌋ : ℚ) ≤ y - (⌊y⌋ : ℚ) := by linarith
    unfold rne
    rw [hfe]
    split_ifs <;> first | omega | (exfalso; linarith)

/-! ## Lemmas about round64Q -/

/-- Half-ulp relative error bound of binary64 rounding. -/
def eps53 : ℚ := 1/2^53

theorem zpow_mul_zpow (a b : ℤ) : (2:ℚ)^a * (2:ℚ)^b = (2:ℚ)^(a+b) :=
  (zpow_add₀ (by norm_num) a b).symm

theorem zpow_pos2 (a : ℤ) : (0:ℚ) < (2:ℚ)^a := zpow_pos (by norm_num) a

theorem log2_unique (q : ℚ) (k : ℤ) (h0 : 0 < q) (h1 : (2:ℚ)^k ≤ q)
    (h2 : q < (2:ℚ)^(k+1)) : Int.log 2 q = k := by
  have hk1 : ((2:ℕ):ℚ)^k ≤ q := by push_cast; exact h1
  have hk2 : q < ((2:ℕ):ℚ)^(k+1) := by push_cast; exact h2
  have ha : k ≤ Int.log 2 q := (Int.zpow_le_iff_le_log (by norm_num) h0).mp hk1
  have hb : Int.log 2 q < k + 1 := (Int.lt_zpow_iff_log_lt (by norm_num) h0).mp hk2
  omega

theorem log2_lower (q : ℚ) (h0 : 0 < q) : (2:ℚ)^(Int.log 2 q) ≤ q := by
  have h : ((2:ℕ):ℚ)^(Int.log 2 q) ≤ q := Int.zpow_log_le_self (by norm_num) h0
  push_cast at h
  exact h

theorem log2_upper (q : ℚ) : q < (2:ℚ)^(Int.log 2 q + 1) := by
  have h : q < ((2:ℕ):ℚ)^(Int.log 2 q + 1) := Int.lt_zpow_succ_log_self (by norm_num) q
  push_cast at h
  exact h

theorem log2_mono {x y : ℚ} (h0 : 0 < x) (h : x ≤ y) : Int.log 2 x ≤ Int.log 2 y :=
  Int.log_mono_right h0 h

theorem scaled_lower (q : ℚ) (h0 : 0 < q) :
    (2:ℚ)^(52:ℤ) ≤ q * (2:ℚ)^(52 - Int.log 2 q) := by
  have h1 : (2:ℚ)^(Int.log 2 q) * (2:ℚ)^(52 - Int.log 2 q) ≤ q * (2:ℚ)^(52 - Int.log 2 q) :=
    mul_le_mul_of_nonneg_right (log2_lower q h0) (le_of_lt (zpow_pos2 _))
  calc (2:ℚ)^(52:ℤ) = (2:ℚ)^(Int.log 2 q) * (2:ℚ)^(52 - Int.log 2 q) := by
        rw [zpow_mul_zpow]
        congr 1
        ring
    _ ≤ q * (2:ℚ)^(52 - Int.log 2 q) := h1

theorem scaled_upper (q : ℚ) :
    q * (2:ℚ)^(52 - Int.log 2 q) < (2:ℚ)^(53:ℤ) := by
  have h1 : q * (2:ℚ)^(52 - Int.log 2 q) < (2:ℚ)^(Int.log 2 q + 1) * (2:ℚ)^(52 - Int.log 2 q) :=
    mul_lt_mul_of_pos_right (log2_upper q) (zpow_pos2 _)
  calc q * (2:ℚ)^(52 - Int.log 2 q) < (2:ℚ)^(Int.log 2 q + 1) * (2:ℚ)^(52 - Int.log 2 q) := h1
    _ = (2:ℚ)^(53:ℤ) := by
        rw [zpow_mul_zpow]
        congr 1
        ring

theorem roundPosQ_le (q : ℚ) (h0 : 0 < q) : roundPosQ q ≤ q + q * eps53 := by
  have h1 : (rne (q * (2:ℚ)^(52 - Int.log 2 q)) : ℚ) ≤ q * (2:ℚ)^(52 - Int.log 2 q) + 1/2 :=
    rne_le _
  have h2 : roundPosQ q ≤ (q * (2:ℚ)^(52 - Int.log 2 q) + 1/2) * (2:ℚ)^(Int.log 2 q - 52) :=
    mul_le_mul_of_nonneg_right h1 (le_of_lt (zpow_pos2 _))
  have h3 : (q * (2:ℚ)^(52 - Int.log 2 q) + 1/2) * (2:ℚ)^(Int.log 2 q - 52)
      = q + (2:ℚ)^(Int.log 2 q - 53) := by
    rw [add_mul, mul_assoc, zpow_mul_zpow]
    have e1 : 52 - Int.log 2 q + (Int.log 2 q - 52) = 0 := by ring
    rw [e1]
    have e2 : (1:ℚ)/2 * (2:ℚ)^(Int.log 2 q - 52) = (2:ℚ)^(Int.log 2 q - 53) := by
      have : (1:ℚ)/2 = (2:ℚ)^(-1 : ℤ) := by norm_num
      rw [this, zpow_mul_zpow]
      congr 1
      ring
    rw [e2]
    norm_num
  have h4 : (2:ℚ)^(Int.log 2 q - 53) ≤ q * eps53 := by
    have h5 : (2:ℚ)^(Int.log 2 q) * (2:ℚ)^(-53:ℤ) ≤ q * (2:ℚ)^(-53:ℤ) :=
      mul_le_mul_of_nonneg_right (log2_lower q h0) (le_of_lt (zpow_pos2 _))
    have h6 : eps53 = (2:ℚ)^(-53:ℤ) := by
      rw [eps53]
      norm_num
    rw [h6]
    calc (2:ℚ)^(Int.log 2 q - 53) = (2:ℚ)^(Int.log 2 q) * (2:ℚ)^(-53:ℤ) := by
          rw [zpow_mul_zpow]
          congr 1
      _ ≤ q * (2:ℚ)^(-53:ℤ) := h5
  calc roundPosQ q ≤ q + (2:ℚ)^(Int.log 2 q - 53) := by rw [← h3]; exact h2
    _ ≤ q + q * eps53 := by linarith

theorem le_roundPosQ (q : ℚ) (h0 : 0 < q) : q - q * eps53 ≤ roundPosQ q := by
  have h1 : q * (2:ℚ)^(52 - Int.log 2 q) - 1/2 ≤ (rne (q * (2:ℚ)^(52 - Int.log 2 q)) : ℚ) :=
    rne_ge _
  have h2 : (q * (2:ℚ)^(52 - Int.log 2 q) - 1/2) * (2:ℚ)^(Int.log 2 q - 52) ≤ roundPosQ q :=
    mul_le_mul_of_nonneg_right h1 (le_of_lt (zpow_pos2 _))
  have h3 : (q * (2:ℚ)^(52 - Int.log 2 q) - 1/2) * (2:ℚ)^(Int.log 2 q - 52)
      = q - (2:ℚ)^(Int.log 2 q - 53) := by
    rw [sub_mul, mul_assoc, zpow_mul_zpow]
    have e1 : 52 - Int.log 2 q + (Int.log 2 q - 52) = 0 := by ring
    rw [e1]
    have e2 : (1:ℚ)/2 * (2:ℚ)^(Int.log 2 q - 52) = (2:ℚ)^(Int.log 2 q - 53) := by
      have : (1:ℚ)/2 = (2:ℚ)^(-1 : ℤ) := by norm_num
      rw [this, zpow_mul_zpow]
      congr 1
      ring
    rw [e2]
    norm_num
  have h4 : (2:ℚ)^(Int.log 2 q - 53) ≤ q * eps53 := by
    have h5 : (2:ℚ)^(Int.log 2 q) * (2:ℚ)^(-53:ℤ) ≤ q * (2:ℚ)^(-53:ℤ) :=
      mul_le_mul_of_nonneg_right (log2_lower q h0) (le_of_lt (zpow_pos2 _))
    have h6 : eps53 = (2:ℚ)^(-53:ℤ) := by
      rw [eps53]
      norm_num
    rw [h6]
    calc (2:ℚ)^(Int.log 2 q - 53) = (2:ℚ)^(Int.log 2 q) * (2:ℚ)^(-53:ℤ) := by
          rw [zpow_mul_zpow]
          congr 1
      _ ≤ q * (2:ℚ)^(-53:ℤ) := h5
  calc q - q * eps53 ≤ q - (2:ℚ)^(Int.log 2 q - 53) := by linarith
    _ ≤ roundPosQ q := by rw [← h3]; exact h2

theorem round64Q_zero : round64Q 0 = 0 := by
  unfold round64Q
  norm_num

theorem round64Q_of_pos {q : ℚ} (h0 : 0 < q) : round64Q q = roundPosQ q := by
  unfold round64Q
  rw [if_pos h0]

theorem round64Q_le {q : ℚ} (h0 : 0 ≤ q) : round64Q q ≤ q + q * eps53 := by
  rcases eq_or_lt_of_le h0 with h | h
  · rw [← h, round64Q_zero]
    norm_num
  · rw [round64Q_of_pos h]
    exact roundPosQ_le q h

theorem le_round64Q {q : ℚ} (h0 : 0 ≤ q) : q - q * eps53 ≤ round64Q q := by
  rcases eq_or_lt_of_le h0 with h | h
  · rw [← h, round64Q_zero]
    norm_num
  · rw [round64Q_of_pos h]
    exact le_roundPosQ q h

theorem round64Q_nonneg {q : ℚ} (h0 : 0 ≤ q) : 0 ≤ round64Q q := by
  have h1 := le_round64Q h0
  have h2 : 0 ≤ q - q * eps53 := by
    have : q * eps53 ≤ q * 1 := by
      apply mul_le_mul_of_nonneg_left _ h0
      unfold eps53
      norm_num
    linarith
  linarith

theorem roundPosQ_pos (q : ℚ) (h0 : 0 < q) : 0 < roundPosQ q := by
  have h1 := le_roundPosQ q h0
  have h2 : 0 < q - q * eps53 := by
    have : q * eps53 < q * 1 := by
      apply mul_lt_mul_of_pos_left _ h0
      unfold eps53
      norm_num
    linarith
  linarith

theorem roundPosQ_lower_pow (q : ℚ) (h0 : 0 < q) :
    (2:ℚ)^(Int.log 2 q) ≤ roundPosQ q := by
  have hm := scaled_lower q h0
  have h1 : ((2:ℚ)^(52:ℤ) : ℚ) ≤ (rne (q * (2:ℚ)^(52 - Int.log 2 q)) : ℚ) := by
    have hfl : (2^52 : ℤ) ≤ ⌊q * (2:ℚ)^(52 - Int.log 2 q)⌋ := by
      apply Int.le_floor.mpr
      push_cast
      exact le_trans (by norm_num) hm
    have := rne_ge_floor (q * (2:ℚ)^(52 - Int.log 2 q))
    have hcast : (2^52 : ℤ) ≤ rne (q * (2:ℚ)^(52 - Int.log 2 q)) := le_trans hfl this
    push_cast
    exact_mod_cast hcast
  have h2 : ((2:ℚ)^(52:ℤ)) * (2:ℚ)^(Int.log 2 q - 52)
      ≤ (rne (q * (2:ℚ)^(52 - Int.log 2 q)) : ℚ) * (2:ℚ)^(Int.log 2 q - 52) :=
    mul_le_mul_of_nonneg_right h1 (le_of_lt (zpow_pos2 _))
  calc (2:ℚ)^(Int.log 2 q) = ((2:ℚ)^(52:ℤ)) * (2:ℚ)^(Int.log 2 q - 52) := by
        rw [zpow_mul_zpow]
        congr 1
        ring
    _ ≤ roundPosQ q := h2

theorem roundPosQ_upper_pow (q : ℚ) (h0 : 0 < q) :
    roundPosQ q ≤ (2:ℚ)^(Int.log 2 q + 1) := by
  have hm := scaled_upper q
  have h1 : (rne (q * (2:ℚ)^(52 - Int.log 2 q)) : ℚ) ≤ ((2:ℚ)^(53:ℤ) : ℚ) := by
    have hfl : ⌊q * (2:ℚ)^(52 - Int.log 2 q)⌋ < (2^53 : ℤ) := by
      apply Int.floor_lt.mpr
      push_cast
      exact lt_of_lt_of_le hm (by norm_num)
    have h2 := rne_le_floor_add_one (q * (2:ℚ)^(52 - Int.log 2 q))
    have hcast : rne (q * (2:ℚ)^(52 - Int.log 2 q)) ≤ (2^53 : ℤ) := by omega
    push_cast
    exact_mod_cast hcast
  have h2 : (rne (q * (2:ℚ)^(52 - Int.log 2 q)) : ℚ) * (2:ℚ)^(Int.log 2 q - 52)
      ≤ ((2:ℚ)^(53:ℤ)) * (2:ℚ)^(Int.log 2 q - 52) :=
    mul_le_mul_of_nonneg_right h1 (le_of_lt (zpow_pos2 _))
  calc roundPosQ q ≤ ((2:ℚ)^(53:ℤ)) * (2:ℚ)^(Int.log 2 q - 52) := h2
    _ = (2:ℚ)^(Int.log 2 q + 1) := by
        rw [zpow_mul_zpow]
        congr 1
        ring

theorem round64Q_mono {x y : ℚ} (h0 : 0 ≤ x) (hxy : x ≤ y) :
    round64Q x ≤ round64Q y := by
  rcases eq_or_lt_of_le h0 with h | hx
  · rw [← h, round64Q_zero]
    exact round64Q_nonneg (le_trans h0 hxy)
  · have hy : 0 < y := lt_of_lt_of_le hx hxy
    rw [round64Q_of_pos hx, round64Q_of_pos hy]
    have hL : Int.log 2 x ≤ Int.log 2 y := log2_mono hx hxy
    rcases eq_or_lt_of_le hL with hLe | hLlt
    · unfold roundPosQ
      rw [hLe]
      have h1 : x * (2:ℚ)^(52 - Int.log 2 y) ≤ y * (2:ℚ)^(52 - Int.log 2 y) :=
        mul_le_mul_of_nonneg_right hxy (le_of_lt (zpow_pos2 _))
      have h2 : rne (x * (2:ℚ)^(52 - Int.log 2 y)) ≤ rne (y * (2:ℚ)^(52 - Int.log 2 y)) :=
        rne_mono h1
      apply mul_le_mul_of_nonneg_right _ (le_of_lt (zpow_pos2 _))
      exact_mod_cast h2
    · calc roundPosQ x ≤ (2:ℚ)^(Int.log 2 x + 1) := roundPosQ_upper_pow x hx
        _ ≤ (2:ℚ)^(Int.log 2 y) := zpow_le_zpow_right₀ (by norm_num) (by omega)
        _ ≤ roundPosQ y := roundPosQ_lower_pow y hy

/-! ## Representable values -/

theorem rep_neg {x : ℚ} (hx : Rep53 x) : Rep53 (-x) := by
  obtain ⟨m, k, hx1, hm⟩ := hx
  exact ⟨-m, k, by rw [hx1]; push_cast; ring, by simpa using hm⟩

theorem rep_int (n : ℤ) (h : n.natAbs ≤ 2^53) : Rep53 (n : ℚ) :=
  ⟨n, 0, by simp, h⟩

theorem rep_natCast (n : ℕ) (h : n ≤ 2^53) : Rep53 (n : ℚ) := by
  have : ((n:ℤ) : ℚ) = (n : ℚ) := by push_cast; rfl
  rw [← this]
  exact rep_int n (by simpa using h)

theorem rep_scaled {x : ℚ} (hx : Rep53 x) (h0 : 0 < x) :
    ∃ M : ℤ, (M : ℚ) = x * (2:ℚ)^(52 - Int.log 2 x) ∧ 2^52 ≤ M ∧ M < 2^53 := by
  obtain ⟨m, k, hx1, hm⟩ := hx
  obtain ⟨L, hLdef⟩ : ∃ L, Int.log 2 x = L := ⟨_, rfl⟩
  have hlow : (2:ℚ)^(52:ℤ) ≤ x * (2:ℚ)^(52 - L) := by
    rw [← hLdef]
    exact scaled_lower x h0
  have hup : x * (2:ℚ)^(52 - L) < (2:ℚ)^(53:ℤ) := by
    rw [← hLdef]
    exact scaled_upper x
  have hL2 : (2:ℚ)^L ≤ x := by
    rw [← hLdef]
    exact log2_lower x h0
  have hmpos : 0 < m := by
    by_contra hc
    push_neg at hc
    have : (m:ℚ) * (2:ℚ)^k ≤ 0 :=
      mul_nonpos_of_nonpos_of_nonneg (by exact_mod_cast hc) (le_of_lt (zpow_pos2 k))
    rw [← hx1] at this
    linarith
  have hm53 : m ≤ 2^53 := by
    have := hm
    omega
  have hxle : x ≤ (2:ℚ)^(53 + k) := by
    rw [hx1]
    calc (m:ℚ) * (2:ℚ)^k ≤ (2^53 : ℚ) * (2:ℚ)^k := by
          apply mul_le_mul_of_nonneg_right _ (le_of_lt (zpow_pos2 k))
          exact_mod_cast hm53
      _ = (2:ℚ)^(53 + k) := by
          rw [show ((2:ℚ)^53 : ℚ) = (2:ℚ)^(53:ℤ) by norm_num, zpow_mul_zpow]
  have hLle : L ≤ 53 + k := by
    by_contra hc
    push_neg at hc
    have h1 : (2:ℚ)^(53 + k + 1) ≤ (2:ℚ)^L :=
      zpow_le_zpow_right₀ (by norm_num) (by omega)
    have h3 : (2:ℚ)^(53 + k) < (2:ℚ)^(53 + k + 1) :=
      zpow_lt_zpow_right₀ (by norm_num) (by omega)
    linarith
  have hEx : ∃ M : ℤ, (M : ℚ) = x * (2:ℚ)^(52 - L) := by
    rcases lt_or_le L (53 + k) with hc | hc
    · refine ⟨m * 2^((52 + k - L).toNat), ?_⟩
      have ht : ((52 + k - L).toNat : ℤ) = 52 + k - L := Int.toNat_of_nonneg (by omega)
      push_cast
      rw [show ((2:ℚ)^((52 + k - L).toNat) : ℚ) = (2:ℚ)^(52 + k - L) by
        rw [← zpow_natCast, ht]]
      rw [hx1, mul_assoc, zpow_mul_zpow]
      congr 2
      ring
    · have hLeq : L = 53 + k := le_antisymm hLle hc
      refine ⟨2^52, ?_⟩
      have hxeq : x = (2:ℚ)^(53 + k) := by
        rw [hLeq] at hL2
        linarith
      rw [hxeq, hLeq, zpow_mul_zpow]
      rw [show (53 + k + (52 - (53 + k)) : ℤ) = 52 by ring]
      push_cast
      norm_num
  obtain ⟨M, hM⟩ := hEx
  rw [hLdef]
  refine ⟨M, hM, ?_, ?_⟩
  · have h1 : ((2^52 : ℤ) : ℚ) ≤ (M:ℚ) := by
      rw [hM]
      exact le_trans (by norm_num) hlow
    exact_mod_cast h1
  · have h1 : (M:ℚ) < ((2^53 : ℤ) : ℚ) := by
      rw [hM]
      exact lt_of_lt_of_le hup (by norm_num)
    exact_mod_cast h1

theorem roundPosQ_eq_self {x : ℚ} (hx : Rep53 x) (h0 : 0 < x) : roundPosQ x = x := by
  obtain ⟨M, hM, _, _⟩ := rep_scaled hx h0
  unfold roundPosQ
  rw [← hM, rne_intCast, hM, mul_assoc, zpow_mul_zpow]
  rw [show (52 - Int.log 2 x + (Int.log 2 x - 52) : ℤ) = 0 by ring]
  norm_num

theorem round64Q_eq_self {x : ℚ} (hx : Rep53 x) : round64Q x = x := by
  rcases lt_trichotomy x 0 with h | h | h
  · unfold round64Q
    rw [if_neg (by linarith), if_pos h]
    have : roundPosQ (-x) = -x := roundPosQ_eq_self (rep_neg hx) (by linarith)
    rw [this]
    ring
  · rw [h, round64Q_zero]
  · rw [round64Q_of_pos h]
    exact roundPosQ_eq_self hx h

theorem rep_roundPosQ (q : ℚ) (h0 : 0 < q) : Rep53 (roundPosQ q) := by
  have hlow := scaled_lower q h0
  have hup := scaled_upper q
  refine ⟨rne (q * (2:ℚ)^(52 - Int.log 2 q)), Int.log 2 q - 52, rfl, ?_⟩
  have h1 : (0:ℤ) ≤ rne (q * (2:ℚ)^(52 - Int.log 2 q)) := by
    have h2 := rne_ge (q * (2:ℚ)^(52 - Int.log 2 q))
    have h3 : (0:ℚ) < q * (2:ℚ)^(52 - Int.log 2 q) - 1/2 := by
      have : (0:ℚ) < (2:ℚ)^(52:ℤ) - 1/2 := by norm_num
      linarith
    have h4 : (0:ℚ) < (rne (q * (2:ℚ)^(52 - Int.log 2 q)) : ℚ) := lt_of_lt_of_le h3 h2
    exact_mod_cast le_of_lt h4
  have h2 : rne (q * (2:ℚ)^(52 - Int.log 2 q)) ≤ 2^53 := by
    have h3 : ⌊q * (2:ℚ)^(52 - Int.log 2 q)⌋ < (2^53:ℤ) := by
      apply Int.floor_lt.mpr
      push_cast
      exact lt_of_lt_of_le hup (by norm_num)
    have h4 := rne_le_floor_add_one (q * (2:ℚ)^(52 - Int.log 2 q))
    omega
  omega

theorem rep_round64Q (q : ℚ) : Rep53 (round64Q q) := by
  rcases lt_trichotomy q 0 with h | h | h
  · unfold round64Q
    rw [if_neg (by linarith), if_pos h]
    exact rep_neg (rep_roundPosQ (-q) (by linarith))
  · rw [h, round64Q_zero]
    exact ⟨0, 0, by norm_num, by norm_num⟩
  · rw [round64Q_of_pos h]
    exact rep_roundPosQ q h

theorem rep_gap {x y : ℚ} (hx : Rep53 x) (hy : Rep53 y) (h0 : 0 < x) (hxy : x < y) :
    x + x * eps53 ≤ y := by
  have hy0 : 0 < y := lt_trans h0 hxy
  obtain ⟨Mx, hMx, hMxl, hMxu⟩ := rep_scaled hx h0
  obtain ⟨My, hMy, hMyl, hMyu⟩ := rep_scaled hy hy0
  obtain ⟨Lx, hLx⟩ : ∃ L, Int.log 2 x = L := ⟨_, rfl⟩
  obtain ⟨Ly, hLy⟩ : ∃ L, Int.log 2 y = L := ⟨_, rfl⟩
  rw [hLx] at hMx
  rw [hLy] at hMy
  have hL : Lx ≤ Ly := by
    rw [← hLx, ← hLy]
    exact log2_mono h0 (le_of_lt hxy)
  have hxup : x < (2:ℚ)^(Lx + 1) := by
    rw [← hLx]
    exact log2_upper x
  have hylow : (2:ℚ)^Ly ≤ y := by
    rw [← hLy]
    exact log2_lower y hy0
  have hxval : (Mx : ℚ) * (2:ℚ)^(Lx - 52) = x := by
    rw [hMx, mul_assoc, zpow_mul_zpow]
    rw [show (52 - Lx + (Lx - 52) : ℤ) = 0 by ring]
    norm_num
  have hyval : (My : ℚ) * (2:ℚ)^(Ly - 52) = y := by
    rw [hMy, mul_assoc, zpow_mul_zpow]
    rw [show (52 - Ly + (Ly - 52) : ℤ) = 0 by ring]
    norm_num
  have hxepsle : x * eps53 ≤ (2:ℚ)^(Lx - 52) := by
    have h2 : eps53 = (2:ℚ)^(-53:ℤ) := by
      rw [eps53]
      norm_num
    rw [h2]
    calc x * (2:ℚ)^(-53:ℤ) ≤ (2:ℚ)^(Lx + 1) * (2:ℚ)^(-53:ℤ) :=
          mul_le_mul_of_nonneg_right (le_of_lt hxup) (le_of_lt (zpow_pos2 _))
      _ = (2:ℚ)^(Lx - 52) := by
          rw [zpow_mul_zpow]
          congr 1
          ring
  rcases eq_or_lt_of_le hL with hLe | hLlt
  · have hMlt : Mx < My := by
      have h1 : (Mx : ℚ) * (2:ℚ)^(Lx - 52) < (My : ℚ) * (2:ℚ)^(Lx - 52) := by
        rw [hxval]
        rw [hLe] at hxval ⊢
        rw [hyval]
        exact hxy
      have h2 : (Mx : ℚ) < (My : ℚ) :=
        lt_of_mul_lt_mul_right h1 (le_of_lt (zpow_pos2 _))
      exact_mod_cast h2
    have h1 : (Mx : ℚ) + 1 ≤ (My : ℚ) := by
      exact_mod_cast hMlt
    have h2 : ((Mx : ℚ) + 1) * (2:ℚ)^(Lx - 52) ≤ (My : ℚ) * (2:ℚ)^(Lx - 52) :=
      mul_le_mul_of_nonneg_right h1 (le_of_lt (zpow_pos2 _))
    have h3 : (My : ℚ) * (2:ℚ)^(Lx - 52) = y := by
      rw [hLe]
      exact hyval
    nlinarith [hxval, h3, hxepsle]
  · have hMxle : (Mx : ℚ) ≤ (2:ℚ)^(53:ℤ) - 1 := by
      calc (Mx:ℚ) ≤ ((2^53 - 1 : ℤ) : ℚ) := by
            exact_mod_cast (by omega : Mx ≤ 2^53 - 1)
        _ = (2:ℚ)^(53:ℤ) - 1 := by
            push_cast
            norm_num
    have hxmax : x ≤ ((2:ℚ)^(53:ℤ) - 1) * (2:ℚ)^(Lx - 52) := by
      rw [← hxval]
      exact mul_le_mul_of_nonneg_right hMxle (le_of_lt (zpow_pos2 _))
    have h1 : ((2:ℚ)^(53:ℤ) - 1) * (2:ℚ)^(Lx - 52) + (2:ℚ)^(Lx - 52)
        = (2:ℚ)^(Lx + 1) := by
      rw [sub_mul, one_mul, zpow_mul_zpow]
      rw [show (53 + (Lx - 52) : ℤ) = Lx + 1 by ring]
      ring
    have hy1 : (2:ℚ)^(Lx + 1) ≤ (2:ℚ)^Ly :=
      zpow_le_zpow_right₀ (by norm_num) (by omega)
    linarith

theorem round64Q_lt_one {x : ℚ} (h0 : 0 < x) (hx : x < 1 - 1/2^54) : round64Q x < 1 := by
  rw [round64Q_of_pos h0]
  rcases lt_or_le x (1/2) with hc | hc
  · have h1 := roundPosQ_le x h0
    have h2 : x * eps53 < x := by
      apply mul_lt_of_lt_one_right h0
      rw [eps53]
      norm_num
    linarith
  · have hL : Int.log 2 x = -1 := by
      apply log2_unique x (-1) h0
      · calc (2:ℚ)^(-1:ℤ) = 1/2 := by norm_num
          _ ≤ x := hc
      · calc x < 1 - 1/2^54 := hx
          _ < (2:ℚ)^(-1 + 1 : ℤ) := by norm_num
    unfold roundPosQ
    rw [hL]
    rw [show (52 - (-1) : ℤ) = 53 by norm_num, show ((-1) - 52 : ℤ) = -53 by norm_num]
    have hb : rne (x * (2:ℚ)^(53:ℤ)) ≤ 2^53 - 1 := by
      have h2 := rne_le (x * (2:ℚ)^(53:ℤ))
      have h3 : x * (2:ℚ)^(53:ℤ) < (1 - 1/2^54) * (2:ℚ)^(53:ℤ) :=
        mul_lt_mul_of_pos_right hx (zpow_pos2 _)
      have h4 : (1 - 1/2^54 : ℚ) * (2:ℚ)^(53:ℤ) = (2:ℚ)^(53:ℤ) - 1/2 := by norm_num
      have h5 : (rne (x * (2:ℚ)^(53:ℤ)) : ℚ) < ((2^53 : ℤ) : ℚ) := by
        have hP : ((2:ℚ)^(53:ℤ)) = (9007199254740992:ℚ) := by norm_num
        rw [hP] at h2 h3 h4 ⊢
        push_cast
        linarith
      have h7 : rne (x * (2:ℚ)^(53:ℤ)) < 2^53 := by
        exact_mod_cast h5
      omega
    have hbq : (rne (x * (2:ℚ)^(53:ℤ)) : ℚ) ≤ (2:ℚ)^(53:ℤ) - 1 := by
      calc (rne (x * (2:ℚ)^(53:ℤ)) : ℚ) ≤ ((2^53 - 1 : ℤ) : ℚ) := by
            exact_mod_cast hb
        _ = (2:ℚ)^(53:ℤ) - 1 := by
            push_cast
            norm_num
    have hfin : ((2:ℚ)^(53:ℤ) - 1) * (2:ℚ)^(-53:ℤ) < 1 := by norm_num
    calc (rne (x * (2:ℚ)^(53:ℤ)) : ℚ) * (2:ℚ)^(-53:ℤ)
        ≤ ((2:ℚ)^(53:ℤ) - 1) * (2:ℚ)^(-53:ℤ) :=
          mul_le_mul_of_nonneg_right hbq (le_of_lt (zpow_pos2 _))
      _ < 1 := hfin

/-! ## Bridge: the integer implementation computes round64Q -/

theorem round64Q_neg (x : ℚ) : round64Q (-x) = - round64Q x := by
  rcases lt_trichotomy x 0 with h | h | h
  · have h1 : 0 < -x := by linarith
    rw [round64Q_of_pos h1]
    unfold round64Q
    rw [if_neg (by linarith), if_pos h]
    ring
  · rw [h]
    rw [neg_zero, round64Q_zero]
    norm_num
  · have h1 : -x < 0 := by linarith
    unfold round64Q
    rw [if_neg (by linarith), if_pos h1, if_pos h, neg_neg]

theorem log2_mul_zpow (q : ℚ) (h0 : 0 < q) (e : ℤ) :
    Int.log 2 (q * (2:ℚ)^e) = Int.log 2 q + e := by
  apply log2_unique _ _ (mul_pos h0 (zpow_pos2 e))
  · rw [← zpow_mul_zpow]
    exact mul_le_mul_of_nonneg_right (log2_lower q h0) (le_of_lt (zpow_pos2 e))
  · rw [show (Int.log 2 q + e + 1 : ℤ) = (Int.log 2 q + 1) + e by ring, ← zpow_mul_zpow]
    exact mul_lt_mul_of_pos_right (log2_upper q) (zpow_pos2 e)

theorem floor_natDiv (N D : ℕ) (hD : 0 < D) : ⌊(N:ℚ)/D⌋ = (N/D : ℕ) := by
  have hD' : (0:ℚ) < D := by exact_mod_cast hD
  have key : (N:ℚ)/D = ((N/D : ℕ):ℚ) + ((N%D : ℕ):ℚ)/D := by
    have h2 : ((D:ℚ)) * ((N/D : ℕ):ℚ) + ((N%D : ℕ):ℚ) = (N:ℚ) := by
      exact_mod_cast congrArg (Nat.cast : ℕ → ℚ) (Nat.div_add_mod N D)
    field_simp
    linarith
  rw [key]
  rw [show ((N/D : ℕ):ℚ) = (((N/D : ℕ) : ℤ):ℚ) by push_cast; rfl]
  rw [Int.floor_int_add]
  have hfr : ⌊((N%D : ℕ):ℚ)/D⌋ = 0 := by
    apply Int.floor_eq_zero_iff.mpr
    constructor
    · positivity
    · rw [div_lt_one hD']
      exact_mod_cast Nat.mod_lt N hD
  rw [hfr]
  ring

theorem rne_natDiv (N D : ℕ) (hD : 0 < D) :
    rne ((N:ℚ)/D) =
      ((if 2*(N%D) < D then N/D
        else if D < 2*(N%D) then N/D + 1
        else if (N/D) % 2 = 0 then N/D else N/D + 1 : ℕ) : ℤ) := by
  have hD' : (0:ℚ) < D := by exact_mod_cast hD
  have hfl : ⌊(N:ℚ)/D⌋ = (N/D : ℕ) := floor_natDiv N D hD
  have hfrac : (N:ℚ)/D - (((N/D : ℕ) : ℤ):ℚ) = ((N%D : ℕ):ℚ)/D := by
    have h1 : D * (N/D) + N % D = N := Nat.div_add_mod N D
    have h2 : ((D:ℚ)) * ((N/D : ℕ):ℚ) + ((N%D : ℕ):ℚ) = (N:ℚ) := by
      exact_mod_cast congrArg (Nat.cast : ℕ → ℚ) h1
    have hcast : (((N/D : ℕ) : ℤ):ℚ) = ((N/D : ℕ):ℚ) := by push_cast; rfl
    rw [hcast]
    field_simp
    linarith
  have hlt : (((N%D : ℕ):ℚ)/D < 1/2) ↔ 2*(N%D) < D := by
    rw [div_lt_div_iff hD' (by norm_num : (0:ℚ) < 2)]
    constructor
    · intro h
      have h2 : ((N%D) * 2 : ℕ) < 1 * D := by exact_mod_cast h
      omega
    · intro h
      have h2 : ((N%D) * 2 : ℕ) < 1 * D := by omega
      exact_mod_cast h2
  have hgt : ((1:ℚ)/2 < ((N%D : ℕ):ℚ)/D) ↔ D < 2*(N%D) := by
    rw [div_lt_div_iff (by norm_num : (0:ℚ) < 2) hD']
    constructor
    · intro h
      have h2 : (1 * D : ℕ) < (N%D) * 2 := by exact_mod_cast h
      omega
    · intro h
      have h2 : (1 * D : ℕ) < (N%D) * 2 := by omega
      exact_mod_cast h2
  have hpar : ((N/D : ℕ) : ℤ) % 2 = 0 ↔ (N/D) % 2 = 0 := by omega
  unfold rne
  rw [hfl, hfrac]
  rcases lt_trichotomy (2*(N%D)) D with hc | hc | hc
  · rw [if_pos (hlt.mpr hc), if_pos hc]
  · have h1 : ¬ (((N%D : ℕ):ℚ)/D < 1/2) := by
      rw [hlt]
      omega
    have h2 : ¬ ((1:ℚ)/2 < ((N%D : ℕ):ℚ)/D) := by
      rw [hgt]
      omega
    rw [if_neg h1, if_neg h2, if_neg (by omega : ¬ 2*(N%D) < D),
      if_neg (by omega : ¬ D < 2*(N%D))]
    by_cases hp : (N/D) % 2 = 0
    · rw [if_pos (hpar.mpr hp), if_pos hp]
    · rw [if_neg (fun h => hp (hpar.mp h)), if_neg hp]
      push_cast
      ring
  · have h1 : ¬ (((N%D : ℕ):ℚ)/D < 1/2) := by
      rw [hlt]
      omega
    rw [if_neg h1, if_pos (hgt.mpr hc), if_neg (by omega : ¬ 2*(N%D) < D), if_pos hc]
    push_cast
    ring

theorem shift_cond_iff (n d bn bd : ℕ) (hd : 0 < d) :
    (d * 2^(((bn:ℤ) - bd).toNat) ≤ n * 2^(((bd:ℤ) - bn).toNat)) ↔
      ((2:ℚ)^((bn:ℤ) - bd) ≤ (n:ℚ)/d) := by
  have hd' : (0:ℚ) < d := by exact_mod_cast hd
  rcases le_total bd bn with hc | hc
  · have h1 : (((bn:ℤ) - bd).toNat) = bn - bd := by omega
    have h2 : (((bd:ℤ) - bn).toNat) = 0 := by omega
    rw [h1, h2, pow_zero, mul_one]
    rw [show ((bn:ℤ) - bd) = ((bn - bd : ℕ) : ℤ) by omega, zpow_natCast]
    rw [le_div_iff hd']
    constructor
    · intro h
      have h0 : 2^(bn-bd) * d ≤ n := by
        rw [mul_comm] at h
        exact h
      calc (2:ℚ)^(bn - bd) * d = ((2^(bn-bd) * d : ℕ) : ℚ) := by push_cast; ring
        _ ≤ (n:ℚ) := by exact_mod_cast h0
    · intro h
      have h3 : ((2^(bn-bd) * d : ℕ) : ℚ) ≤ (n:ℚ) := by
        calc ((2^(bn-bd) * d : ℕ) : ℚ) = (2:ℚ)^(bn - bd) * d := by push_cast; ring
          _ ≤ (n:ℚ) := h
      have h4 : 2^(bn-bd) * d ≤ n := by exact_mod_cast h3
      rw [mul_comm]
      exact h4
  · have h1 : (((bn:ℤ) - bd).toNat) = 0 := by omega
    have h2 : (((bd:ℤ) - bn).toNat) = bd - bn := by omega
    rw [h1, h2, pow_zero, mul_one]
    rw [show ((bn:ℤ) - bd) = -((bd - bn : ℕ) : ℤ) by omega, zpow_neg, zpow_natCast]
    rw [inv_eq_one_div, div_le_div_iff (by positivity) hd']
    constructor
    · intro h
      have h3 : ((d:ℕ):ℚ) ≤ ((n * 2^(bd - bn) : ℕ) : ℚ) := by exact_mod_cast h
      calc (1:ℚ) * d = (d:ℚ) := by ring
        _ ≤ ((n * 2^(bd - bn) : ℕ) : ℚ) := h3
        _ = (n:ℚ) * 2^(bd - bn) := by push_cast; ring
    · intro h
      have h3 : (d:ℚ) ≤ ((n * 2^(bd - bn) : ℕ) : ℚ) := by
        calc (d:ℚ) = (1:ℚ) * d := by ring
          _ ≤ (n:ℚ) * 2^(bd - bn) := h
          _ = ((n * 2^(bd - bn) : ℕ) : ℚ) := by push_cast; ring
      exact_mod_cast h3

theorem div_zpow_lower (n d : ℕ) (hn : 0 < n) (hd : 0 < d) :
    (2:ℚ)^((bitLen n:ℤ) - bitLen d - 1) < (n:ℚ)/d := by
  have hd' : (0:ℚ) < d := by exact_mod_cast hd
  have hbn := bitLen_bounds hn
  have hbd := bitLen_bounds hd
  have hn_low : (2:ℚ)^((bitLen n:ℤ) - 1) ≤ (n:ℚ) := by
    rw [show ((bitLen n:ℤ) - 1) = ((bitLen n - 1 : ℕ) : ℤ) by
      have := bitLen_pos hn
      omega, zpow_natCast]
    exact_mod_cast hbn.1
  have hd_up : (d:ℚ) < (2:ℚ)^((bitLen d:ℤ)) := by
    rw [show ((bitLen d:ℤ)) = ((bitLen d : ℕ) : ℤ) by rfl, zpow_natCast]
    exact_mod_cast hbd.2
  rw [lt_div_iff hd']
  calc (2:ℚ)^((bitLen n:ℤ) - bitLen d - 1) * d
      < (2:ℚ)^((bitLen n:ℤ) - bitLen d - 1) * (2:ℚ)^((bitLen d:ℤ)) :=
        mul_lt_mul_of_pos_left hd_up (zpow_pos2 _)
    _ = (2:ℚ)^((bitLen n:ℤ) - 1) := by
        rw [zpow_mul_zpow]
        congr 1
        ring
    _ ≤ (n:ℚ) := hn_low

theorem div_zpow_upper (n d : ℕ) (hn : 0 < n) (hd : 0 < d) :
    (n:ℚ)/d < (2:ℚ)^((bitLen n:ℤ) - bitLen d + 1) := by
  have hd' : (0:ℚ) < d := by exact_mod_cast hd
  have hbn := bitLen_bounds hn
  have hbd := bitLen_bounds hd
  have hn_up : (n:ℚ) < (2:ℚ)^((bitLen n:ℤ)) := by
    rw [show ((bitLen n:ℤ)) = ((bitLen n : ℕ) : ℤ) by rfl, zpow_natCast]
    exact_mod_cast hbn.2
  have hd_low : (2:ℚ)^((bitLen d:ℤ) - 1) ≤ (d:ℚ) := by
    rw [show ((bitLen d:ℤ) - 1) = ((bitLen d - 1 : ℕ) : ℤ) by
      have := bitLen_pos hd
      omega, zpow_natCast]
    exact_mod_cast hbd.1
  rw [div_lt_iff hd']
  calc (n:ℚ) < (2:ℚ)^((bitLen n:ℤ)) := hn_up
    _ = (2:ℚ)^((bitLen n:ℤ) - bitLen d + 1) * (2:ℚ)^((bitLen d:ℤ) - 1) := by
        rw [zpow_mul_zpow]
        congr 1
        ring
    _ ≤ (2:ℚ)^((bitLen n:ℤ) - bitLen d + 1) * d :=
        mul_le_mul_of_nonneg_left hd_low (le_of_lt (zpow_pos2 _))

theorem rawExp_eq_log (n d : ℕ) (hn : 0 < n) (hd : 0 < d) :
    rawExp n d = Int.log 2 ((n:ℚ)/d) := by
  have hq0 : (0:ℚ) < (n:ℚ)/d :=
    div_pos (by exact_mod_cast hn) (by exact_mod_cast hd)
  unfold rawExp
  split
  · rename_i hc
    have h1 : (2:ℚ)^((bitLen n:ℤ) - bitLen d) ≤ (n:ℚ)/d :=
      (shift_cond_iff n d (bitLen n) (bitLen d) hd).mp hc
    exact (log2_unique _ _ hq0 h1 (div_zpow_upper n d hn hd)).symm
  · rename_i hc
    have h1 : ¬ ((2:ℚ)^((bitLen n:ℤ) - bitLen d) ≤ (n:ℚ)/d) := by
      intro h
      exact hc ((shift_cond_iff n d (bitLen n) (bitLen d) hd).mpr h)
    push_neg at h1
    refine (log2_unique _ _ hq0 (le_of_lt (div_zpow_lower n d hn hd)) ?_).symm
    rw [show ((bitLen n:ℤ) - bitLen d - 1 + 1) = (bitLen n:ℤ) - bitLen d by ring]
    exact h1

theorem rawDiv_val (n d : ℕ) (hd : 0 < d) (t : ℤ) :
    ((n * 2^(t.toNat) : ℕ) : ℚ) / ((d * 2^((-t).toNat) : ℕ) : ℚ) = (n:ℚ)/d * (2:ℚ)^t := by
  have hd' : (0:ℚ) < d := by exact_mod_cast hd
  rcases le_or_lt 0 t with hc | hc
  · have h1 : (-t).toNat = 0 := by omega
    have h2 : (2:ℚ)^t = (2:ℚ)^(t.toNat : ℕ) := by
      rw [← zpow_natCast]
      congr 1
      omega
    rw [h1, h2]
    push_cast
    field_simp
    try ring
  · have h1 : t.toNat = 0 := by omega
    have h2 : (2:ℚ)^t = ((2:ℚ)^((-t).toNat : ℕ))⁻¹ := by
      rw [← zpow_natCast, ← zpow_neg]
      congr 1
      omega
    rw [h1, h2]
    have hpow : (0:ℚ) < (2:ℚ)^((-t).toNat : ℕ) := by positivity
    push_cast
    field_simp

theorem rawSig_eq_rne (n d : ℕ) (hn : 0 < n) (hd : 0 < d) :
    (rawSig n d : ℤ) = rne ((n:ℚ)/d * (2:ℚ)^(52 - rawExp n d)) := by
  have hD : 0 < d * 2^(((-(52 - rawExp n d))).toNat) := by positivity
  have hval := rawDiv_val n d hd (52 - rawExp n d)
  rw [← hval]
  rw [rne_natDiv _ _ hD]
  unfold rawSig
  rfl

theorem val_roundPosRaw (n d : ℕ) (hn : 0 < n) (hd : 0 < d) (e : ℤ) :
    val (roundPosRaw n d 1 e) = round64Q ((n : ℚ) / d * (2:ℚ)^e) := by
  have hq0 : (0:ℚ) < (n:ℚ)/d :=
    div_pos (by exact_mod_cast hn) (by exact_mod_cast hd)
  have hqe : (0:ℚ) < (n:ℚ)/d * (2:ℚ)^e := mul_pos hq0 (zpow_pos2 e)
  rw [round64Q_of_pos hqe]
  unfold roundPosQ
  rw [log2_mul_zpow _ hq0 e]
  have harg : (n:ℚ)/d * (2:ℚ)^e * (2:ℚ)^(52 - (Int.log 2 ((n:ℚ)/d) + e))
      = (n:ℚ)/d * (2:ℚ)^(52 - Int.log 2 ((n:ℚ)/d)) := by
    rw [mul_assoc, zpow_mul_zpow]
    congr 2
    ring
  rw [harg]
  have hsig := rawSig_eq_rne n d hn hd
  rw [rawExp_eq_log n d hn hd] at hsig
  have hgoal : val (roundPosRaw n d 1 e)
      = ((1 * (rawSig n d : ℤ) : ℤ) : ℚ) * (2:ℚ)^(rawExp n d + e - 52) := rfl
  rw [hgoal, rawExp_eq_log n d hn hd, one_mul, hsig]

theorem val_roundPosRaw_neg (n d : ℕ) (hn : 0 < n) (hd : 0 < d) (e : ℤ) :
    val (roundPosRaw n d (-1) e) = - round64Q ((n : ℚ) / d * (2:ℚ)^e) := by
  rw [← val_roundPosRaw n d hn hd e]
  unfold roundPosRaw val
  push_cast
  ring

theorem val_rnd (m : ℤ) (e : ℤ) : val (rnd m e) = round64Q ((m:ℚ) * (2:ℚ)^e) := by
  rcases lt_trichotomy m 0 with hm | hm | hm
  · have hm0 : m ≠ 0 := by omega
    unfold rnd
    rw [if_neg hm0, Int.sign_eq_neg_one_of_neg hm]
    rw [val_roundPosRaw_neg m.natAbs 1 (by omega) one_pos e]
    have h1 : ((m.natAbs : ℕ) : ℚ) / (1:ℕ) = -(m:ℚ) := by
      have h2 : ((m.natAbs : ℤ)) = -m := by omega
      have h3 : ((m.natAbs : ℕ) : ℚ) = -(m:ℚ) := by
        rw [Int.cast_natAbs, abs_of_neg (show m < 0 by omega)]
        push_cast
        ring
      rw [h3, show ((1:ℕ):ℚ) = 1 by norm_num, div_one]
    rw [h1]
    have h3 : -(m:ℚ) * (2:ℚ)^e = -((m:ℚ) * (2:ℚ)^e) := by ring
    rw [h3, round64Q_neg]
    ring
  · subst hm
    unfold rnd
    rw [if_pos rfl]
    unfold val
    norm_num [round64Q_zero]
  · have hm0 : m ≠ 0 := by omega
    unfold rnd
    rw [if_neg hm0, Int.sign_eq_one_of_pos hm]
    rw [val_roundPosRaw m.natAbs 1 (by omega) one_pos e]
    have h1 : ((m.natAbs : ℕ) : ℚ) / (1:ℕ) = (m:ℚ) := by
      have h2 : ((m.natAbs : ℤ)) = m := by omega
      have h3 : ((m.natAbs : ℕ) : ℚ) = (m:ℚ) := by
        rw [Int.cast_natAbs, abs_of_pos (show (0:ℤ) < m by omega)]
      rw [h3, show ((1:ℕ):ℚ) = 1 by norm_num, div_one]
    rw [h1]

theorem val_mk_mul_int (x : ℤ) (k : ℤ) : val ⟨x, k⟩ = (x:ℚ) * (2:ℚ)^k := rfl

theorem val_fadd (a b : FP) : val (fadd a b) = round64Q (val a + val b) := by
  unfold fadd
  rw [val_rnd]
  congr 1
  have hA : ((a.m : ℚ)) * (2:ℚ)^((a.e - min a.e b.e).toNat) * (2:ℚ)^(min a.e b.e) = val a := by
    rw [show ((2:ℚ)^((a.e - min a.e b.e).toNat : ℕ)) = (2:ℚ)^(a.e - min a.e b.e) by
      rw [← zpow_natCast]
      congr 1
      omega]
    rw [mul_assoc, zpow_mul_zpow]
    unfold val
    congr 2
    omega
  have hB : ((b.m : ℚ)) * (2:ℚ)^((b.e - min a.e b.e).toNat) * (2:ℚ)^(min a.e b.e) = val b := by
    rw [show ((2:ℚ)^((b.e - min a.e b.e).toNat : ℕ)) = (2:ℚ)^(b.e - min a.e b.e) by
      rw [← zpow_natCast]
      congr 1
      omega]
    rw [mul_assoc, zpow_mul_zpow]
    unfold val
    congr 2
    omega
  push_cast
  rw [add_mul]
  rw [hA, hB]

theorem val_neg_mk (b : FP) : val ⟨-b.m, b.e⟩ = - val b := by
  unfold val
  push_cast
  ring

theorem val_fsub (a b : FP) : val (fsub a b) = round64Q (val a - val b) := by
  unfold fsub
  rw [val_fadd]
  rw [val_neg_mk]
  ring_nf

theorem val_fmul (a b : FP) : val (fmul a b) = round64Q (val a * val b) := by
  unfold fmul
  rw [val_rnd]
  congr 1
  unfold val
  push_cast
  rw [← zpow_mul_zpow]
  ring

theorem val_fdiv (a b : FP) : val (fdiv a b) = round64Q (val a / val b) := by
  unfold fdiv
  by_cases ha : a.m = 0
  · rw [if_pos (Or.inl ha)]
    have hva : val a = 0 := by
      unfold val
      rw [ha]
      norm_num
    rw [hva, zero_div, round64Q_zero]
    unfold val
    norm_num
  · by_cases hb : b.m = 0
    · rw [if_pos (Or.inr hb)]
      have hvb : val b = 0 := by
        unfold val
        rw [hb]
        norm_num
      rw [hvb, div_zero, round64Q_zero]
      unfold val
      norm_num
    · rw [if_neg (by push_neg; exact ⟨ha, hb⟩)]
      have hA : (0:ℕ) < a.m.natAbs := by omega
      have hB : (0:ℕ) < b.m.natAbs := by omega
      have hBq : (0:ℚ) < (b.m.natAbs : ℚ) := by exact_mod_cast hB
      have hquot : ∀ (A B : ℚ), B ≠ 0 →
          (A * (2:ℚ)^a.e) / (B * (2:ℚ)^b.e) = A/B * (2:ℚ)^(a.e - b.e) := by
        intro A B hBne
        rw [zpow_sub₀ (by norm_num : (2:ℚ) ≠ 0)]
        field_simp
      rcases lt_or_gt_of_ne ha with hma | hma
      · rcases lt_or_gt_of_ne hb with hmb | hmb
        · rw [Int.sign_eq_neg_one_of_neg hma, Int.sign_eq_neg_one_of_neg hmb]
          rw [show ((-1) * (-1) : ℤ) = 1 by norm_num]
          rw [val_roundPosRaw _ _ hA hB]
          congr 1
          have h1 : val a = -(a.m.natAbs : ℚ) * (2:ℚ)^a.e := by
            unfold val
            have : ((a.m.natAbs : ℤ)) = -a.m := by omega
            have h2 : ((a.m.natAbs : ℕ) : ℚ) = -(a.m:ℚ) := by
              rw [Int.cast_natAbs, abs_of_neg (show a.m < 0 by omega)]
              push_cast
              ring
            rw [h2]
            ring
          have h2 : val b = -(b.m.natAbs : ℚ) * (2:ℚ)^b.e := by
            unfold val
            have : ((b.m.natAbs : ℤ)) = -b.m := by omega
            have h3 : ((b.m.natAbs : ℕ) : ℚ) = -(b.m:ℚ) := by
              rw [Int.cast_natAbs, abs_of_neg (show b.m < 0 by omega)]
              push_cast
              ring
            rw [h3]
            ring
          rw [h1, h2]
          rw [show (-(a.m.natAbs : ℚ) * (2:ℚ)^a.e) = (-(a.m.natAbs : ℚ)) * (2:ℚ)^a.e from rfl]
          rw [hquot _ _ (by exact_mod_cast (by omega : ¬ -(b.m.natAbs:ℤ) = 0) : ¬ -(b.m.natAbs:ℚ) = 0)]
          rw [neg_div_neg_eq]
        · rw [Int.sign_eq_neg_one_of_neg hma, Int.sign_eq_one_of_pos hmb]
          rw [show ((-1) * 1 : ℤ) = -1 by norm_num]
          rw [val_roundPosRaw_neg _ _ hA hB]
          have h1 : val a = -((a.m.natAbs : ℚ) * (2:ℚ)^a.e) := by
            unfold val
            have : ((a.m.natAbs : ℤ)) = -a.m := by omega
            have h2 : ((a.m.natAbs : ℕ) : ℚ) = -(a.m:ℚ) := by
              rw [Int.cast_natAbs, abs_of_neg (show a.m < 0 by omega)]
              push_cast
              ring
            rw [h2]
            ring
          have h2 : val b = (b.m.natAbs : ℚ) * (2:ℚ)^b.e := by
            unfold val
            have : ((b.m.natAbs : ℤ)) = b.m := by omega
            have h3 : ((b.m.natAbs : ℕ) : ℚ) = (b.m:ℚ) := by
              rw [Int.cast_natAbs, abs_of_pos (show (0:ℤ) < b.m by omega)]
            rw [h3]
          rw [h1, h2, neg_div, round64Q_neg]
          congr 2
          rw [hquot _ _ (ne_of_gt hBq)]
      · rcases lt_or_gt_of_ne hb with hmb | hmb
        · rw [Int.sign_eq_one_of_pos hma, Int.sign_eq_neg_one_of_neg hmb]
          rw [show (1 * (-1) : ℤ) = -1 by norm_num]
          rw [val_roundPosRaw_neg _ _ hA hB]
          have h1 : val a = (a.m.natAbs : ℚ) * (2:ℚ)^a.e := by
            unfold val
            have : ((a.m.natAbs : ℤ)) = a.m := by omega
            have h2 : ((a.m.natAbs : ℕ) : ℚ) = (a.m:ℚ) := by
              rw [Int.cast_natAbs, abs_of_pos (show (0:ℤ) < a.m by omega)]
            rw [h2]
          have h2 : val b = -((b.m.natAbs : ℚ) * (2:ℚ)^b.e) := by
            unfold val
            have : ((b.m.natAbs : ℤ)) = -b.m := by omega
            have h3 : ((b.m.natAbs : ℕ) : ℚ) = -(b.m:ℚ) := by
              rw [Int.cast_natAbs, abs_of_neg (show b.m < 0 by omega)]
              push_cast
              ring
            rw [h3]
            ring
          rw [h1, h2, div_neg, round64Q_neg]
          congr 2
          rw [hquot _ _ (ne_of_gt hBq)]
        · rw [Int.sign_eq_one_of_pos hma, Int.sign_eq_one_of_pos hmb]
          rw [show (1 * 1 : ℤ) = 1 by norm_num]
          rw [val_roundPosRaw _ _ hA hB]
          congr 1
          have h1 : val a = (a.m.natAbs : ℚ) * (2:ℚ)^a.e := by
            unfold val
            have : ((a.m.natAbs : ℤ)) = a.m := by omega
            have h2 : ((a.m.natAbs : ℕ) : ℚ) = (a.m:ℚ) := by
              rw [Int.cast_natAbs, abs_of_pos (show (0:ℤ) < a.m by omega)]
            rw [h2]
          have h2 : val b = (b.m.natAbs : ℚ) * (2:ℚ)^b.e := by
            unfold val
            have : ((b.m.natAbs : ℤ)) = b.m := by omega
            have h3 : ((b.m.natAbs : ℕ) : ℚ) = (b.m:ℚ) := by
              rw [Int.cast_natAbs, abs_of_pos (show (0:ℤ) < b.m by omega)]
            rw [h3]
          rw [h1, h2, hquot _ _ (ne_of_gt hBq)]

theorem val_ofNat (n : ℕ) : val (FP.ofNat n) = round64Q (n : ℚ) := by
  unfold FP.ofNat
  rw [val_rnd]
  norm_num

theorem le_iff_val (a b : FP) : FP.le a b ↔ val a ≤ val b := by
  unfold FP.le
  have hcast : (a.m * 2^((a.e - min a.e b.e).toNat) ≤ b.m * 2^((b.e - min a.e b.e).toNat)) ↔
      (((a.m * 2^((a.e - min a.e b.e).toNat) : ℤ) : ℚ) ≤
        ((b.m * 2^((b.e - min a.e b.e).toNat) : ℤ) : ℚ)) :=
    Int.cast_le.symm
  rw [hcast]
  have hmul : (((a.m * 2^((a.e - min a.e b.e).toNat) : ℤ) : ℚ) ≤
      ((b.m * 2^((b.e - min a.e b.e).toNat) : ℤ) : ℚ)) ↔
      (((a.m * 2^((a.e - min a.e b.e).toNat) : ℤ) : ℚ) * (2:ℚ)^(min a.e b.e) ≤
        ((b.m * 2^((b.e - min a.e b.e).toNat) : ℤ) : ℚ) * (2:ℚ)^(min a.e b.e)) :=
    (mul_le_mul_right (zpow_pos2 _)).symm
  rw [hmul]
  have hA : ((a.m * 2^((a.e - min a.e b.e).toNat) : ℤ) : ℚ) * (2:ℚ)^(min a.e b.e) = val a := by
    push_cast
    rw [show ((2:ℚ)^((a.e - min a.e b.e).toNat : ℕ)) = (2:ℚ)^(a.e - min a.e b.e) by
      rw [← zpow_natCast]
      congr 1
      omega]
    rw [mul_assoc, zpow_mul_zpow]
    unfold val
    congr 2
    omega
  have hB : ((b.m * 2^((b.e - min a.e b.e).toNat) : ℤ) : ℚ) * (2:ℚ)^(min a.e b.e) = val b := by
    push_cast
    rw [show ((2:ℚ)^((b.e - min a.e b.e).toNat : ℕ)) = (2:ℚ)^(b.e - min a.e b.e) by
      rw [← zpow_natCast]
      congr 1
      omega]
    rw [mul_assoc, zpow_mul_zpow]
    unfold val
    congr 2
    omega
  rw [hA, hB]

theorem toU8_val (a : FP) :
    FP.toU8 a = if val a < 0 then 0 else if (256:ℚ) ≤ val a then 255 else ⌊val a⌋.toNat := by
  unfold FP.toU8
  by_cases hm : a.m < 0
  · have hv : val a < 0 :=
      mul_neg_of_neg_of_pos (by exact_mod_cast hm : ((a.m:ℚ)) < 0) (zpow_pos2 _)
    rw [if_pos hm, if_pos hv]
  · push_neg at hm
    have hv : 0 ≤ val a :=
      mul_nonneg (by exact_mod_cast hm : (0:ℚ) ≤ (a.m:ℚ)) (le_of_lt (zpow_pos2 _))
    rw [if_neg (not_lt.mpr hm), if_neg (not_lt.mpr hv)]
    rw [show (let f := if 0 ≤ a.e then a.m.toNat * 2^(a.e.toNat) else a.m.toNat / 2^((-a.e).toNat);
        if 256 ≤ f then (255:ℕ) else f)
      = (if 256 ≤ (if 0 ≤ a.e then a.m.toNat * 2^(a.e.toNat) else a.m.toNat / 2^((-a.e).toNat))
        then (255:ℕ)
        else (if 0 ≤ a.e then a.m.toNat * 2^(a.e.toNat) else a.m.toNat / 2^((-a.e).toNat)))
      from rfl]
    set F := (if 0 ≤ a.e then a.m.toNat * 2^(a.e.toNat) else a.m.toNat / 2^((-a.e).toNat))
      with hFdef
    have hf : (F : ℤ) = ⌊val a⌋ := by
      rw [hFdef]
      split
      · rename_i he
        have h1 : val a = ((a.m.toNat * 2^(a.e.toNat) : ℕ) : ℚ) := by
          unfold val
          push_cast
          rw [show ((2:ℚ)^(a.e.toNat : ℕ)) = (2:ℚ)^a.e by
            rw [← zpow_natCast]
            congr 1
            omega]
          rw [show ((a.m.toNat : ℚ)) = (a.m:ℚ) by
            calc ((a.m.toNat : ℚ)) = (((a.m.toNat : ℤ)) : ℚ) := by norm_cast
              _ = ((a.m : ℤ) : ℚ) := by rw [Int.toNat_of_nonneg hm]
              _ = (a.m:ℚ) := rfl]
        rw [h1, Int.floor_natCast]
      · rename_i he
        push_neg at he
        have h1 : val a = ((a.m.toNat : ℕ) : ℚ) / ((2^((-a.e).toNat) : ℕ) : ℚ) := by
          unfold val
          push_cast
          rw [show ((a.m.toNat : ℚ)) = (a.m:ℚ) by
            calc ((a.m.toNat : ℚ)) = (((a.m.toNat : ℤ)) : ℚ) := by norm_cast
              _ = ((a.m : ℤ) : ℚ) := by rw [Int.toNat_of_nonneg hm]
              _ = (a.m:ℚ) := rfl]
          rw [show ((2:ℚ)^a.e) = ((2:ℚ)^((-a.e).toNat : ℕ))⁻¹ by
            rw [← zpow_natCast, ← zpow_neg]
            congr 1
            omega]
          rw [div_eq_mul_inv]
        rw [h1, floor_natDiv _ _ (by positivity)]
    have hpos : (0:ℤ) ≤ ⌊val a⌋ := Int.floor_nonneg.mpr hv
    have hineq : (256 ≤ F) ↔ ((256:ℚ) ≤ val a) := by
      rw [show ((256:ℚ) ≤ val a) ↔ ((256:ℤ) ≤ ⌊val a⌋) by
        constructor
        · intro h
          exact Int.le_floor.mpr (by exact_mod_cast h)
        · intro h
          calc (256:ℚ) = ((256:ℤ):ℚ) := by norm_num
            _ ≤ (⌊val a⌋ : ℚ) := by exact_mod_cast h
            _ ≤ val a := Int.floor_le _]
      omega
    split_ifs with h1 h2 h2
    · rfl
    · exact absurd (hineq.mp h1) h2
    · exact absurd (hineq.mpr h2) h1
    · omega

/-! ## The program: LevelInfo (src/mee6/src/lib.rs)

The Rust constructor is
  pub fn new(xp: u64) -> Self {
      let level = {
          let xp = xp as f64;
          let mut testxp = 0.0;
          let mut level = 0;
          while xp >= testxp {
              level += 1;
              testxp = Self::xp_to_level(f64::from(level));
          }
          level - 1
      };
      let last_level_xp_requirement = Self::xp_to_level(f64::from(level));
      let next_level_xp_requirement = Self::xp_to_level(f64::from(level + 1));
      Self { xp, level: level as u64,
             percentage: (((xp as f64 - last_level_xp_requirement)
                 / (next_level_xp_requirement - last_level_xp_requirement)) * 100.0) as u8 }
  }
and  fn xp_to_level(level: f64) -> f64 {
  (5.0 / 6.0) * level * (2.0 * level * level + 27.0 * level + 91.0) }.
The while loop is modeled with fuel (FUEL = 4000000); the fuel is proved
sufficient for every u64 input (the loop always exits by level 3000000,
whose threshold already exceeds 2^64).  The getD 1 default is never
reached for u64 inputs. -/

structure LevelInfo where
  xp : ℕ
  level : ℕ
  percentage : ℕ
  deriving DecidableEq, Repr

def LevelInfo.xp_to_level (level : FP) : FP :=
  fmul (fmul (fdiv ⟨5,0⟩ ⟨6,0⟩) level)
    (fadd (fadd (fmul (fmul ⟨2,0⟩ level) level) (fmul ⟨27,0⟩ level)) ⟨91,0⟩)

def levelLoop (xpF : FP) : ℕ → ℕ → FP → Option ℕ
  | 0, _, _ => none
  | fuel+1, level, testxp =>
    if FP.le testxp xpF then
      levelLoop xpF fuel (level+1) (LevelInfo.xp_to_level (FP.ofNat (level+1)))
    else some level

def FUEL : ℕ := 4000000

def LevelInfo.new (xp : ℕ) : LevelInfo :=
  let xpF := FP.ofNat xp
  let level := (levelLoop xpF FUEL 0 ⟨0, 0⟩).getD 1 - 1
  let last := LevelInfo.xp_to_level (FP.ofNat level)
  let next := LevelInfo.xp_to_level (FP.ofNat (level + 1))
  { xp := xp
    level := level
    percentage := FP.toU8 (fmul (fdiv (fsub xpF last) (fsub next last)) ⟨100, 0⟩) }

/-- The exact threshold function of spec section 4.1 (modelled from the
spec: the real-valued reference curve (5/6)*level*(2*level^2+27*level+91),
used to compare the f64 computation against). -/
def specThreshold (l : ℕ) : ℚ := (5/6 : ℚ) * l * (2*(l:ℚ)^2 + 27*l + 91)

/-- The f64 threshold of an integer level, as the program computes it. -/
def Tf (l : ℕ) : FP := LevelInfo.xp_to_level (FP.ofNat l)

/-! ## Loop lemmas -/

theorem Tf_zero : Tf 0 = ⟨0, 0⟩ := by decide

theorem val_Tf_zero : val (Tf 0) = 0 := by
  rw [Tf_zero]
  unfold val
  norm_num

theorem levelLoop_sound (xpF : FP) : ∀ fuel lv E, levelLoop xpF fuel lv (Tf lv) = some E →
    lv ≤ E ∧ val xpF < val (Tf E) ∧ (∀ j, lv ≤ j → j < E → val (Tf j) ≤ val xpF) := by
  intro fuel
  induction fuel with
  | zero =>
    intro lv E h
    simp [levelLoop] at h
  | succ f ih =>
    intro lv E h
    simp only [levelLoop] at h
    by_cases hc : FP.le (Tf lv) xpF
    · rw [if_pos hc] at h
      obtain ⟨h1, h2, h3⟩ := ih (lv+1) E h
      refine ⟨by omega, h2, ?_⟩
      intro j hj1 hj2
      rcases eq_or_lt_of_le hj1 with he | hlt
      · rw [← he]
        exact (le_iff_val _ _).mp hc
      · exact h3 j (by omega) hj2
    · rw [if_neg hc] at h
      have hE : E = lv := by
        injection h with h'
        omega
      subst hE
      refine ⟨le_rfl, ?_, ?_⟩
      · exact lt_of_not_le (fun hle => hc ((le_iff_val _ _).mpr hle))
      · intro j hj1 hj2
        omega

theorem levelLoop_some (xpF : FP) :
    ∀ fuel lv, (∃ j, lv ≤ j ∧ j < lv + fuel ∧ val xpF < val (Tf j)) →
    (levelLoop xpF fuel lv (Tf lv)).isSome := by
  intro fuel
  induction fuel with
  | zero =>
    intro lv h
    obtain ⟨j, hj1, hj2, _⟩ := h
    omega
  | succ f ih =>
    intro lv h
    obtain ⟨j, hj1, hj2, hj3⟩ := h
    simp only [levelLoop]
    by_cases hc : FP.le (Tf lv) xpF
    · rw [if_pos hc]
      apply ih (lv+1)
      have hjne : j ≠ lv := by
        intro he
        rw [he] at hj3
        exact absurd ((le_iff_val _ _).mp hc) (not_le_of_lt hj3)
      exact ⟨j, by omega, by omega, hj3⟩
    · rw [if_neg hc]
      simp

theorem xpF_le_pow64 (xp : ℕ) (h : xp < 2^64) : val (FP.ofNat xp) ≤ 2^64 := by
  rw [val_ofNat]
  have h1 : round64Q (xp : ℚ) ≤ round64Q ((2^64 - 1 : ℕ) : ℚ) := by
    apply round64Q_mono (by positivity)
    exact_mod_cast (by omega : xp ≤ 2^64 - 1)
  have h2 : round64Q ((2^64 - 1 : ℕ) : ℚ) = val (FP.ofNat (2^64 - 1)) := (val_ofNat _).symm
  have h3 : FP.ofNat (2^64 - 1) = ⟨9007199254740992, 11⟩ := by decide
  have h4 : val (⟨9007199254740992, 11⟩ : FP) = 2^64 := by
    unfold val
    norm_num
  calc round64Q (xp : ℚ) ≤ round64Q ((2^64 - 1 : ℕ) : ℚ) := h1
    _ = val (FP.ofNat (2^64 - 1)) := h2
    _ = 2^64 := by rw [h3, h4]

theorem Tf_big : (2:ℚ)^64 < val (Tf 3000000) := by
  have h1 : Tf 3000000 = ⟨5493188781766052, 13⟩ := by decide
  rw [h1]
  unfold val
  norm_num

theorem new_isSome (xp : ℕ) (h : xp < 2^64) :
    (levelLoop (FP.ofNat xp) FUEL 0 ⟨0, 0⟩).isSome := by
  rw [← Tf_zero]
  apply levelLoop_some (FP.ofNat xp) FUEL 0
  refine ⟨3000000, by omega, by norm_num [FUEL], ?_⟩
  calc val (FP.ofNat xp) ≤ 2^64 := xpF_le_pow64 xp h
    _ < val (Tf 3000000) := Tf_big

theorem new_level_is (xp : ℕ) (E : ℕ)
    (hE : levelLoop (FP.ofNat xp) FUEL 0 ⟨0, 0⟩ = some E) :
    (LevelInfo.new xp).level = E - 1 := by
  show (levelLoop (FP.ofNat xp) FUEL 0 ⟨0, 0⟩).getD 1 - 1 = E - 1
  rw [hE]
  rfl

theorem new_level_spec (xp : ℕ) (h : xp < 2^64) :
    (∀ j, j ≤ (LevelInfo.new xp).level → val (Tf j) ≤ val (FP.ofNat xp)) ∧
    val (FP.ofNat xp) < val (Tf ((LevelInfo.new xp).level + 1)) := by
  obtain ⟨E, hE⟩ := Option.isSome_iff_exists.mp (new_isSome xp h)
  have hE' : levelLoop (FP.ofNat xp) FUEL 0 (Tf 0) = some E := by
    rw [Tf_zero]
    exact hE
  obtain ⟨h1, h2, h3⟩ := levelLoop_sound (FP.ofNat xp) FUEL 0 E hE'
  have hE1 : 1 ≤ E := by
    by_contra hc
    have hE0 : E = 0 := by omega
    rw [hE0] at h2
    rw [val_Tf_zero] at h2
    have := round64Q_nonneg (show (0:ℚ) ≤ (xp:ℚ) by positivity)
    rw [← val_ofNat] at this
    linarith
  have hlev : (LevelInfo.new xp).level = E - 1 := new_level_is xp E hE
  constructor
  · intro j hj
    apply h3 j (by omega)
    omega
  · rw [hlev, show (E - 1 + 1) = E by omega]
    exact h2

/-! ## Analysis of the f64 threshold function -/

theorem eps53_pos : (0:ℚ) < eps53 := by
  rw [eps53]
  norm_num

theorem round64Q_natCast {n : ℕ} (h : n ≤ 2^53) : round64Q (n:ℚ) = (n:ℚ) :=
  round64Q_eq_self (rep_natCast n h)

theorem val_ofNat_exact {n : ℕ} (h : n ≤ 2^53) : val (FP.ofNat n) = (n:ℚ) := by
  rw [val_ofNat]
  exact round64Q_natCast h

theorem val_c : val (fdiv ⟨5,0⟩ ⟨6,0⟩) = 7505999378950827 / 2^53 := by
  rw [show fdiv ⟨5,0⟩ ⟨6,0⟩ = (⟨7505999378950827, -53⟩ : FP) by decide]
  unfold val
  norm_num

theorem round64Q_le_fac {q : ℚ} (h : 0 ≤ q) : round64Q q ≤ q * (1 + eps53) := by
  calc round64Q q ≤ q + q * eps53 := round64Q_le h
    _ = q * (1 + eps53) := by ring

theorem le_round64Q_fac {q : ℚ} (h : 0 ≤ q) : q * (1 - eps53) ≤ round64Q q := by
  calc q * (1 - eps53) = q - q * eps53 := by ring
    _ ≤ round64Q q := le_round64Q h

theorem val_inner (l : ℕ) (h : l ≤ 10^7) :
    val (fadd (fadd (fmul (fmul ⟨2,0⟩ (FP.ofNat l)) (FP.ofNat l)) (fmul ⟨27,0⟩ (FP.ofNat l))) ⟨91,0⟩)
      = 2*(l:ℚ)^2 + 27*(l:ℚ) + 91 := by
  have hkey : 2*l*l + 27*l + 91 ≤ 2^53 := by
    have h1 : 2*l*l ≤ 2*10^7*10^7 := Nat.mul_le_mul (Nat.mul_le_mul_left 2 h) h
    have h2 : 27*l ≤ 27*10^7 := Nat.mul_le_mul_left 27 h
    omega
  have hl : val (FP.ofNat l) = (l:ℚ) := val_ofNat_exact (by omega)
  have h2v : val (⟨2,0⟩ : FP) = 2 := by
    unfold val
    norm_num
  have h27v : val (⟨27,0⟩ : FP) = 27 := by
    unfold val
    norm_num
  have h91v : val (⟨91,0⟩ : FP) = 91 := by
    unfold val
    norm_num
  have h2 : val (fmul ⟨2,0⟩ (FP.ofNat l)) = 2*(l:ℚ) := by
    rw [val_fmul, hl, h2v]
    rw [show (2:ℚ)*(l:ℚ) = ((2*l : ℕ):ℚ) by push_cast; ring]
    rw [round64Q_natCast (by omega)]
  have h3 : val (fmul (fmul ⟨2,0⟩ (FP.ofNat l)) (FP.ofNat l)) = 2*(l:ℚ)^2 := by
    rw [val_fmul, h2, hl]
    rw [show (2:ℚ)*(l:ℚ)*(l:ℚ) = ((2*l*l : ℕ):ℚ) by push_cast; ring]
    rw [round64Q_natCast (by omega)]
    try push_cast
    try ring
  have h4 : val (fmul ⟨27,0⟩ (FP.ofNat l)) = 27*(l:ℚ) := by
    rw [val_fmul, hl, h27v]
    rw [show (27:ℚ)*(l:ℚ) = ((27*l : ℕ):ℚ) by push_cast; ring]
    rw [round64Q_natCast (by omega)]
  have h5 : val (fadd (fmul (fmul ⟨2,0⟩ (FP.ofNat l)) (FP.ofNat l)) (fmul ⟨27,0⟩ (FP.ofNat l)))
      = 2*(l:ℚ)^2 + 27*(l:ℚ) := by
    rw [val_fadd, h3, h4]
    rw [show (2:ℚ)*(l:ℚ)^2 + 27*(l:ℚ) = ((2*l*l + 27*l : ℕ):ℚ) by push_cast; ring]
    rw [round64Q_natCast (by omega)]
    try push_cast
    try ring
  rw [val_fadd, h5, h91v]
  rw [show (2:ℚ)*(l:ℚ)^2 + 27*(l:ℚ) + 91 = ((2*l*l + 27*l + 91 : ℕ):ℚ) by push_cast; ring]
  rw [round64Q_natCast (by omega)]
  try push_cast
  try ring

theorem Tf_val (l : ℕ) (h : l ≤ 10^7) :
    val (Tf l) = round64Q (round64Q ((7505999378950827/2^53) * (l:ℚ))
      * (2*(l:ℚ)^2 + 27*(l:ℚ) + 91)) := by
  unfold Tf LevelInfo.xp_to_level
  rw [val_fmul, val_fmul, val_c, val_ofNat_exact (show l ≤ 2^53 by omega), val_inner l h]

theorem spec_eq (l : ℕ) : specThreshold l = (5/6:ℚ) * (l:ℚ) * (2*(l:ℚ)^2 + 27*(l:ℚ) + 91) := rfl

theorem spec_nonneg (l : ℕ) : 0 ≤ specThreshold l := by
  rw [spec_eq]
  positivity

theorem Tf_le (l : ℕ) (h : l ≤ 10^7) :
    val (Tf l) ≤ specThreshold l * (1 + (1:ℚ)/2^50) := by
  rcases Nat.eq_zero_or_pos l with h0 | h0
  · subst h0
    rw [val_Tf_zero, spec_eq]
    norm_num
  · rw [Tf_val l h]
    have hx : (1:ℚ) ≤ (l:ℚ) := by exact_mod_cast h0
    have hx0 : (0:ℚ) < (l:ℚ) := by linarith
    have hP : (0:ℚ) < 2*(l:ℚ)^2 + 27*(l:ℚ) + 91 := by positivity
    have hc0 : (0:ℚ) < 7505999378950827/2^53 := by norm_num
    have hcub : (7505999378950827/2^53 : ℚ) ≤ (5/6) * (1 + eps53) := by
      rw [eps53]
      norm_num
    have hB := round64Q_le_fac (show (0:ℚ) ≤ 7505999378950827/2^53 * (l:ℚ) by positivity)
    have hB0 : (0:ℚ) ≤ round64Q (7505999378950827/2^53 * (l:ℚ)) :=
      round64Q_nonneg (by positivity)
    have houter := round64Q_le_fac (mul_nonneg hB0 (le_of_lt hP))
    have heps : (0:ℚ) < 1 + eps53 := by
      have := eps53_pos
      linarith
    calc round64Q (round64Q (7505999378950827/2^53 * (l:ℚ)) * (2*(l:ℚ)^2 + 27*(l:ℚ) + 91))
        ≤ round64Q (7505999378950827/2^53 * (l:ℚ)) * (2*(l:ℚ)^2 + 27*(l:ℚ) + 91) * (1 + eps53) :=
          houter
      _ ≤ (7505999378950827/2^53 * (l:ℚ) * (1 + eps53)) * (2*(l:ℚ)^2 + 27*(l:ℚ) + 91) * (1 + eps53) := by
          apply mul_le_mul_of_nonneg_right _ (le_of_lt heps)
          exact mul_le_mul_of_nonneg_right hB (le_of_lt hP)
      _ ≤ ((5/6) * (1 + eps53) * (l:ℚ) * (1 + eps53)) * (2*(l:ℚ)^2 + 27*(l:ℚ) + 91) * (1 + eps53) := by
          apply mul_le_mul_of_nonneg_right _ (le_of_lt heps)
          apply mul_le_mul_of_nonneg_right _ (le_of_lt hP)
          apply mul_le_mul_of_nonneg_right _ (le_of_lt heps)
          exact mul_le_mul_of_nonneg_right hcub (le_of_lt hx0)
      _ = (5/6) * (l:ℚ) * (2*(l:ℚ)^2 + 27*(l:ℚ) + 91) * (1 + eps53)^3 := by ring
      _ ≤ (5/6) * (l:ℚ) * (2*(l:ℚ)^2 + 27*(l:ℚ) + 91) * (1 + (1:ℚ)/2^50) := by
          apply mul_le_mul_of_nonneg_left _ (by positivity)
          rw [eps53]
          norm_num
      _ = specThreshold l * (1 + (1:ℚ)/2^50) := by rw [spec_eq]

theorem le_Tf (l : ℕ) (h : l ≤ 10^7) :
    specThreshold l * (1 - (1:ℚ)/2^50) ≤ val (Tf l) := by
  rcases Nat.eq_zero_or_pos l with h0 | h0
  · subst h0
    rw [val_Tf_zero, spec_eq]
    norm_num
  · rw [Tf_val l h]
    have hx : (1:ℚ) ≤ (l:ℚ) := by exact_mod_cast h0
    have hx0 : (0:ℚ) < (l:ℚ) := by linarith
    have hP : (0:ℚ) < 2*(l:ℚ)^2 + 27*(l:ℚ) + 91 := by positivity
    have hclb : ((5:ℚ)/6) * (1 - eps53) ≤ 7505999378950827/2^53 := by
      rw [eps53]
      norm_num
    have hB := le_round64Q_fac (show (0:ℚ) ≤ 7505999378950827/2^53 * (l:ℚ) by positivity)
    have heps : (0:ℚ) < 1 - eps53 := by
      rw [eps53]
      norm_num
    have hB0 : (0:ℚ) ≤ round64Q (7505999378950827/2^53 * (l:ℚ)) :=
      round64Q_nonneg (by positivity)
    have houter := le_round64Q_fac (mul_nonneg hB0 (le_of_lt hP))
    calc (5/6) * (l:ℚ) * (2*(l:ℚ)^2 + 27*(l:ℚ) + 91) * (1 - (1:ℚ)/2^50)
        ≤ (5/6) * (l:ℚ) * (2*(l:ℚ)^2 + 27*(l:ℚ) + 91) * (1 - eps53)^3 := by
          apply mul_le_mul_of_nonneg_left _ (by positivity)
          rw [eps53]
          norm_num
      _ = (((5/6) * (1 - eps53)) * (l:ℚ) * (1 - eps53)) * (2*(l:ℚ)^2 + 27*(l:ℚ) + 91) * (1 - eps53) := by
          ring
      _ ≤ (7505999378950827/2^53 * (l:ℚ) * (1 - eps53)) * (2*(l:ℚ)^2 + 27*(l:ℚ) + 91) * (1 - eps53) := by
          apply mul_le_mul_of_nonneg_right _ (le_of_lt heps)
          apply mul_le_mul_of_nonneg_right _ (le_of_lt hP)
          apply mul_le_mul_of_nonneg_right _ (le_of_lt heps)
          exact mul_le_mul_of_nonneg_right hclb (le_of_lt hx0)
      _ ≤ (round64Q (7505999378950827/2^53 * (l:ℚ))) * (2*(l:ℚ)^2 + 27*(l:ℚ) + 91) * (1 - eps53) := by
          apply mul_le_mul_of_nonneg_right _ (le_of_lt heps)
          apply mul_le_mul_of_nonneg_right _ (le_of_lt hP)
          exact hB
      _ ≤ round64Q (round64Q (7505999378950827/2^53 * (l:ℚ)) * (2*(l:ℚ)^2 + 27*(l:ℚ) + 91)) :=
          houter

theorem spec_mono (l1 l2 : ℕ) (h : l1 ≤ l2) : specThreshold l1 ≤ specThreshold l2 := by
  rw [spec_eq, spec_eq]
  have hx : (l1:ℚ) ≤ (l2:ℚ) := by exact_mod_cast h
  have h1 : (0:ℚ) ≤ (l1:ℚ) := by positivity
  nlinarith [sq_nonneg ((l1:ℚ) + l2), sq_nonneg ((l1:ℚ) - l2), hx, h1]

theorem spec_gap (l : ℕ) (h1 : 1 ≤ l) (h7 : l + 1 ≤ 10^7) :
    specThreshold l * (1 + (1:ℚ)/2^50) < specThreshold (l+1) * (1 - (1:ℚ)/2^50) := by
  have hx1 : (1:ℚ) ≤ (l:ℚ) := by exact_mod_cast h1
  have hx0 : (0:ℚ) < (l:ℚ) := by linarith
  have hx7 : (l:ℚ) ≤ 10^7 := by
    have : l ≤ 10^7 := by omega
    exact_mod_cast this
  have hdiff : specThreshold (l+1) - specThreshold l = 5*((l:ℚ)^2 + 10*(l:ℚ) + 20) := by
    rw [spec_eq, spec_eq]
    push_cast
    ring
  have hc1 : (l:ℚ)^2 ≤ (l:ℚ)^3 := by nlinarith [sq_nonneg ((l:ℚ)), hx1]
  have hc2 : (l:ℚ) ≤ (l:ℚ)^3 := by
    nlinarith [mul_nonneg (mul_nonneg (le_of_lt hx0) (sub_nonneg.mpr hx1))
      (show (0:ℚ) ≤ (l:ℚ) + 1 by linarith)]
  have hc3 : (1:ℚ) ≤ (l:ℚ)^3 := by nlinarith [hc2, hx1]
  have hub : specThreshold (l+1) ≤ 255 * (l:ℚ)^3 := by
    rw [spec_eq]
    push_cast
    nlinarith [hc1, hc2, hc3, hx1]
  have hx3b : (l:ℚ)^3 ≤ 10^7 * (l:ℚ)^2 := by
    have h1 : (l:ℚ)^3 = (l:ℚ) * (l:ℚ)^2 := by ring
    rw [h1]
    exact mul_le_mul_of_nonneg_right hx7 (sq_nonneg _)
  have hlel : specThreshold l ≤ specThreshold (l+1) := spec_mono l (l+1) (by omega)
  have hsq : (0:ℚ) ≤ (l:ℚ)^2 := sq_nonneg _
  have hsn := spec_nonneg l
  linarith [hdiff, hub, hx3b, hlel, hsn, hsq, hx0]

theorem Tf_strict_mono (l1 l2 : ℕ) (h1 : 1 ≤ l1) (hlt : l1 < l2) (h7 : l2 ≤ 10^7) :
    val (Tf l1) < val (Tf l2) := by
  calc val (Tf l1) ≤ specThreshold l1 * (1 + (1:ℚ)/2^50) := Tf_le l1 (by omega)
    _ < specThreshold (l1+1) * (1 - (1:ℚ)/2^50) := spec_gap l1 h1 (by omega)
    _ ≤ specThreshold l2 * (1 - (1:ℚ)/2^50) :=
        mul_le_mul_of_nonneg_right (spec_mono (l1+1) l2 (by omega)) (by norm_num)
    _ ≤ val (Tf l2) := le_Tf l2 h7

theorem val_c_nonneg : (0:ℚ) ≤ val (fdiv ⟨5,0⟩ ⟨6,0⟩) := by
  rw [val_c]
  norm_num

theorem xp_to_level_mono {a b : FP} (ha : 0 ≤ val a) (hab : val a ≤ val b) :
    val (LevelInfo.xp_to_level a) ≤ val (LevelInfo.xp_to_level b) := by
  have hb : 0 ≤ val b := le_trans ha hab
  have hc := val_c_nonneg
  have h2v : val (⟨2,0⟩ : FP) = 2 := by
    unfold val
    norm_num
  have h27v : val (⟨27,0⟩ : FP) = 27 := by
    unfold val
    norm_num
  have h91v : val (⟨91,0⟩ : FP) = 91 := by
    unfold val
    norm_num
  have m1 : val (fmul (fdiv ⟨5,0⟩ ⟨6,0⟩) a) ≤ val (fmul (fdiv ⟨5,0⟩ ⟨6,0⟩) b) := by
    rw [val_fmul (fdiv ⟨5,0⟩ ⟨6,0⟩) a, val_fmul (fdiv ⟨5,0⟩ ⟨6,0⟩) b]
    exact round64Q_mono (mul_nonneg hc ha) (mul_le_mul_of_nonneg_left hab hc)
  have m1a : 0 ≤ val (fmul (fdiv ⟨5,0⟩ ⟨6,0⟩) a) := by
    rw [val_fmul (fdiv ⟨5,0⟩ ⟨6,0⟩) a]
    exact round64Q_nonneg (mul_nonneg hc ha)
  have m2 : val (fmul ⟨2,0⟩ a) ≤ val (fmul ⟨2,0⟩ b) := by
    rw [val_fmul ⟨2,0⟩ a, val_fmul ⟨2,0⟩ b, h2v]
    exact round64Q_mono (by linarith) (by linarith)
  have m2a : 0 ≤ val (fmul ⟨2,0⟩ a) := by
    rw [val_fmul ⟨2,0⟩ a, h2v]
    exact round64Q_nonneg (by linarith)
  have m2b : 0 ≤ val (fmul ⟨2,0⟩ b) := by
    rw [val_fmul ⟨2,0⟩ b, h2v]
    exact round64Q_nonneg (by linarith)
  have m3 : val (fmul (fmul ⟨2,0⟩ a) a) ≤ val (fmul (fmul ⟨2,0⟩ b) b) := by
    rw [val_fmul (fmul ⟨2,0⟩ a) a, val_fmul (fmul ⟨2,0⟩ b) b]
    exact round64Q_mono (mul_nonneg m2a ha) (mul_le_mul m2 hab ha m2b)
  have m3a : 0 ≤ val (fmul (fmul ⟨2,0⟩ a) a) := by
    rw [val_fmul (fmul ⟨2,0⟩ a) a]
    exact round64Q_nonneg (mul_nonneg m2a ha)
  have m4 : val (fmul ⟨27,0⟩ a) ≤ val (fmul ⟨27,0⟩ b) := by
    rw [val_fmul ⟨27,0⟩ a, val_fmul ⟨27,0⟩ b, h27v]
    exact round64Q_mono (by linarith) (by linarith)
  have m4a : 0 ≤ val (fmul ⟨27,0⟩ a) := by
    rw [val_fmul ⟨27,0⟩ a, h27v]
    exact round64Q_nonneg (by linarith)
  have m5 : val (fadd (fmul (fmul ⟨2,0⟩ a) a) (fmul ⟨27,0⟩ a))
      ≤ val (fadd (fmul (fmul ⟨2,0⟩ b) b) (fmul ⟨27,0⟩ b)) := by
    rw [val_fadd (fmul (fmul ⟨2,0⟩ a) a) (fmul ⟨27,0⟩ a),
      val_fadd (fmul (fmul ⟨2,0⟩ b) b) (fmul ⟨27,0⟩ b)]
    exact round64Q_mono (by linarith) (by linarith)
  have m5a : 0 ≤ val (fadd (fmul (fmul ⟨2,0⟩ a) a) (fmul ⟨27,0⟩ a)) := by
    rw [val_fadd (fmul (fmul ⟨2,0⟩ a) a) (fmul ⟨27,0⟩ a)]
    exact round64Q_nonneg (by linarith)
  have m6 : val (fadd (fadd (fmul (fmul ⟨2,0⟩ a) a) (fmul ⟨27,0⟩ a)) ⟨91,0⟩)
      ≤ val (fadd (fadd (fmul (fmul ⟨2,0⟩ b) b) (fmul ⟨27,0⟩ b)) ⟨91,0⟩) := by
    rw [val_fadd (fadd (fmul (fmul ⟨2,0⟩ a) a) (fmul ⟨27,0⟩ a)) ⟨91,0⟩,
      val_fadd (fadd (fmul (fmul ⟨2,0⟩ b) b) (fmul ⟨27,0⟩ b)) ⟨91,0⟩, h91v]
    exact round64Q_mono (by linarith) (by linarith)
  have m6a : 0 ≤ val (fadd (fadd (fmul (fmul ⟨2,0⟩ a) a) (fmul ⟨27,0⟩ a)) ⟨91,0⟩) := by
    rw [val_fadd (fadd (fmul (fmul ⟨2,0⟩ a) a) (fmul ⟨27,0⟩ a)) ⟨91,0⟩, h91v]
    exact round64Q_nonneg (by linarith)
  have m6b : 0 ≤ val (fadd (fadd (fmul (fmul ⟨2,0⟩ b) b) (fmul ⟨27,0⟩ b)) ⟨91,0⟩) :=
    le_trans m6a m6
  unfold LevelInfo.xp_to_level
  rw [val_fmul (fmul (fdiv ⟨5,0⟩ ⟨6,0⟩) a)
      (fadd (fadd (fmul (fmul ⟨2,0⟩ a) a) (fmul ⟨27,0⟩ a)) ⟨91,0⟩),
    val_fmul (fmul (fdiv ⟨5,0⟩ ⟨6,0⟩) b)
      (fadd (fadd (fmul (fmul ⟨2,0⟩ b) b) (fmul ⟨27,0⟩ b)) ⟨91,0⟩)]
  apply round64Q_mono (mul_nonneg m1a m6a)
  exact mul_le_mul m1 m6 m6a (le_trans m1a m1)

theorem xp_to_level_nonneg {a : FP} (ha : 0 ≤ val a) :
    0 ≤ val (LevelInfo.xp_to_level a) := by
  have h0 : val (LevelInfo.xp_to_level (⟨0,0⟩ : FP)) = 0 := by
    rw [show LevelInfo.xp_to_level ⟨0,0⟩ = (⟨0,0⟩ : FP) by decide]
    unfold val
    norm_num
  have h1 : val (⟨0,0⟩ : FP) = 0 := by
    unfold val
    norm_num
  have := @xp_to_level_mono ⟨0,0⟩ a (by rw [h1]) (by rw [h1]; exact ha)
  rw [h0] at this
  exact this

/-! ## Percentage analysis -/

theorem val_Tf_one : val (Tf 1) = 100 := by
  rw [show Tf 1 = (⟨7036874417766400, -46⟩ : FP) by decide]
  unfold val
  norm_num

theorem val_Tf_two : val (Tf 2) = 255 := by
  rw [show Tf 2 = (⟨8972014882652160, -45⟩ : FP) by decide]
  unfold val
  norm_num

theorem val_Tf_three : val (Tf 3) = 475 := by
  rw [show Tf 3 = (⟨8356288371097600, -44⟩ : FP) by decide]
  unfold val
  norm_num

theorem spec_succ_ub (l : ℕ) (h1 : 1 ≤ l) : specThreshold (l+1) ≤ 255 * (l:ℚ)^3 := by
  have hx1 : (1:ℚ) ≤ (l:ℚ) := by exact_mod_cast h1
  have hx0 : (0:ℚ) < (l:ℚ) := by linarith
  have hc1 : (l:ℚ)^2 ≤ (l:ℚ)^3 := by nlinarith [sq_nonneg ((l:ℚ)), hx1]
  have hc2 : (l:ℚ) ≤ (l:ℚ)^3 := by
    nlinarith [mul_nonneg (mul_nonneg (le_of_lt hx0) (sub_nonneg.mpr hx1))
      (show (0:ℚ) ≤ (l:ℚ) + 1 by linarith)]
  have hc3 : (1:ℚ) ≤ (l:ℚ)^3 := by nlinarith [hc2, hx1]
  rw [spec_eq]
  push_cast
  nlinarith [hc1, hc2, hc3, hx1]

theorem Tf_ratio_35 (n : ℕ) (h3 : 3 ≤ n) (h7 : n + 1 ≤ 10^7) :
    3 * val (Tf (n+1)) < 5 * val (Tf n) := by
  have hx3 : (3:ℚ) ≤ (n:ℚ) := by exact_mod_cast h3
  have hx0 : (0:ℚ) < (n:ℚ) := by linarith
  have hx2 : (9:ℚ) ≤ (n:ℚ)^2 := by nlinarith [hx3]
  have hx3c : (27:ℚ) ≤ (n:ℚ)^3 := by
    nlinarith [mul_nonneg (sub_nonneg.mpr hx3)
      (show (0:ℚ) ≤ (n:ℚ)^2 + 3*(n:ℚ) + 9 by positivity)]
  have hx3pos : (0:ℚ) < (n:ℚ)^3 := by positivity
  have hlb35 : (5/6:ℚ) * (n:ℚ)^3 ≤ 5*specThreshold n - 3*specThreshold (n+1) := by
    rw [spec_eq, spec_eq]
    push_cast
    nlinarith [hx2, hx3c, hx3]
  have hub := spec_succ_ub n (by omega)
  have hmono : specThreshold n ≤ specThreshold (n+1) := spec_mono n (n+1) (by omega)
  have hTub := Tf_le (n+1) (by omega)
  have hTlb := le_Tf n (by omega)
  have hsn := spec_nonneg n
  have hsn1 := spec_nonneg (n+1)
  nlinarith [hub, hlb35, hmono, hTub, hTlb, hsn, hsn1, hx3pos]

theorem pct_bounds_aux (xp n : ℕ)
    (hlastle : val (Tf n) ≤ val (FP.ofNat xp))
    (hnextgt : val (FP.ofNat xp) < val (Tf (n+1)))
    (hn : n ≤ 2228552) :
    0 ≤ val (fmul (fdiv (fsub (FP.ofNat xp) (Tf n)) (fsub (Tf (n+1)) (Tf n))) ⟨100,0⟩) ∧
    val (fmul (fdiv (fsub (FP.ofNat xp) (Tf n)) (fsub (Tf (n+1)) (Tf n))) ⟨100,0⟩) < 100 := by
  have hval100 : val (⟨100,0⟩ : FP) = 100 := by
    unfold val
    norm_num
  have hlast0 : 0 ≤ val (Tf n) := by
    have h1 := le_Tf n (by omega)
    nlinarith [spec_nonneg n]
  have hxv0 : 0 ≤ val (FP.ofNat xp) := le_trans hlast0 hlastle
  have hlastlt : val (Tf n) < val (Tf (n+1)) := by
    rcases Nat.eq_zero_or_pos n with h0 | h0
    · subst h0
      rw [val_Tf_zero, val_Tf_one]
      norm_num
    · exact Tf_strict_mono n (n+1) h0 (by omega) (by omega)
  have hnum_eq : val (fsub (FP.ofNat xp) (Tf n))
      = round64Q (val (FP.ofNat xp) - val (Tf n)) := val_fsub _ _
  have hden_eq : val (fsub (Tf (n+1)) (Tf n))
      = round64Q (val (Tf (n+1)) - val (Tf n)) := val_fsub _ _
  have hnum0 : 0 ≤ val (fsub (FP.ofNat xp) (Tf n)) := by
    rw [hnum_eq]
    exact round64Q_nonneg (by linarith)
  have hden_lb : (val (Tf (n+1)) - val (Tf n)) * (1 - eps53) ≤ val (fsub (Tf (n+1)) (Tf n)) := by
    rw [hden_eq]
    exact le_round64Q_fac (by linarith)
  have h1e : (0:ℚ) < 1 - eps53 := by
    rw [eps53]
    norm_num
  have hden0 : 0 < val (fsub (Tf (n+1)) (Tf n)) := by
    nlinarith [mul_pos (sub_pos.mpr hlastlt) h1e, hden_lb]
  rcases eq_or_lt_of_le hnum0 with hz | hpos
  · have hr : val (fdiv (fsub (FP.ofNat xp) (Tf n)) (fsub (Tf (n+1)) (Tf n))) = 0 := by
      rw [val_fdiv, ← hz, zero_div, round64Q_zero]
    have hp : val (fmul (fdiv (fsub (FP.ofNat xp) (Tf n)) (fsub (Tf (n+1)) (Tf n))) ⟨100,0⟩) = 0 := by
      rw [val_fmul, hr, zero_mul, round64Q_zero]
    rw [hp]
    norm_num
  · have hxgt : val (Tf n) < val (FP.ofNat xp) := by
      rcases eq_or_lt_of_le hlastle with he | hlt
      · exfalso
        have h1 : val (fsub (FP.ofNat xp) (Tf n)) = 0 := by
          rw [hnum_eq, ← he, sub_self, round64Q_zero]
        linarith
      · exact hlt
    have hxv_pos : 0 < val (FP.ofNat xp) := lt_of_le_of_lt hlast0 hxgt
    have hxpF_rep : Rep53 (val (FP.ofNat xp)) := by
      rw [val_ofNat]
      exact rep_round64Q _
    have hnext_rep : Rep53 (val (Tf (n+1))) := by
      show Rep53 (val (LevelInfo.xp_to_level (FP.ofNat (n+1))))
      unfold LevelInfo.xp_to_level
      rw [val_fmul]
      exact rep_round64Q _
    have hgap := rep_gap hxpF_rep hnext_rep hxv_pos hnextgt
    have hxvlb : (xp:ℚ) * (1 - eps53) ≤ val (FP.ofNat xp) := by
      rw [val_ofNat]
      exact le_round64Q_fac (by positivity)
    have hkey : val (fsub (FP.ofNat xp) (Tf n)) / val (fsub (Tf (n+1)) (Tf n))
        < 1 - (1:ℚ)/2^54 := by
      rw [div_lt_iff hden0]
      have hnum_ub : val (fsub (FP.ofNat xp) (Tf n))
          ≤ (val (FP.ofNat xp) - val (Tf n)) * (1 + eps53) := by
        rw [hnum_eq]
        exact round64Q_le_fac (by linarith)
      rcases lt_or_le n 3 with hS | hL3
      · have hn3 : n = 0 ∨ n = 1 ∨ n = 2 := by omega
        rcases hn3 with h | h | h
        · subst h
          have hxub : val (FP.ofNat xp) < 100 := by
            rw [val_Tf_one] at hnextgt
            exact hnextgt
          have hxp_small : xp ≤ 2^53 := by
            by_contra hc
            push_neg at hc
            have h1 : (2^53 + 1 : ℚ) ≤ (xp:ℚ) := by exact_mod_cast hc
            rw [eps53] at hxvlb
            nlinarith [hxvlb, hxub, h1]
          have hxv_eq : val (FP.ofNat xp) = (xp:ℚ) := val_ofNat_exact hxp_small
          have hxp99 : xp ≤ 99 := by
            have h1 : (xp:ℚ) < 100 := by
              rw [← hxv_eq]
              exact hxub
            have h2 : xp < 100 := by exact_mod_cast h1
            omega
          have hdenv : val (fsub (Tf 1) (Tf 0)) = 100 := by
            rw [hden_eq, val_Tf_one, val_Tf_zero, sub_zero]
            exact round64Q_eq_self ⟨100, 0, by norm_num, by norm_num⟩
          have hnumv : val (fsub (FP.ofNat xp) (Tf 0)) ≤ 99 := by
            rw [hnum_eq, val_Tf_zero, sub_zero, hxv_eq, round64Q_natCast hxp_small]
            exact_mod_cast hxp99
          rw [hdenv]
          linarith
        · subst h
          have hxub : val (FP.ofNat xp) < 255 := by
            rw [val_Tf_two] at hnextgt
            exact hnextgt
          have hxp_small : xp ≤ 2^53 := by
            by_contra hc
            push_neg at hc
            have h1 : (2^53 + 1 : ℚ) ≤ (xp:ℚ) := by exact_mod_cast hc
            rw [eps53] at hxvlb
            nlinarith [hxvlb, hxub, h1]
          have hxv_eq : val (FP.ofNat xp) = (xp:ℚ) := val_ofNat_exact hxp_small
          have hxp_lb : 100 < xp := by
            rw [val_Tf_one, hxv_eq] at hxgt
            exact_mod_cast hxgt
          have hxp254 : xp ≤ 254 := by
            have h1 : (xp:ℚ) < 255 := by
              rw [← hxv_eq]
              exact hxub
            have h2 : xp < 255 := by exact_mod_cast h1
            omega
          have hdenv : val (fsub (Tf 2) (Tf 1)) = 155 := by
            rw [hden_eq, val_Tf_two, val_Tf_one]
            rw [show (255:ℚ) - 100 = 155 by norm_num]
            exact round64Q_eq_self ⟨155, 0, by norm_num, by norm_num⟩
          have hnumv : val (fsub (FP.ofNat xp) (Tf 1)) ≤ 154 := by
            rw [hnum_eq, val_Tf_one, hxv_eq]
            rw [show (xp:ℚ) - 100 = ((xp - 100 : ℕ):ℚ) by
              rw [Nat.cast_sub (by omega)]
              norm_num]
            rw [round64Q_natCast (by omega)]
            exact_mod_cast (by omega : xp - 100 ≤ 154)
          rw [hdenv]
          linarith
        · subst h
          have hxub : val (FP.ofNat xp) < 475 := by
            rw [val_Tf_three] at hnextgt
            exact hnextgt
          have hxp_small : xp ≤ 2^53 := by
            by_contra hc
            push_neg at hc
            have h1 : (2^53 + 1 : ℚ) ≤ (xp:ℚ) := by exact_mod_cast hc
            rw [eps53] at hxvlb
            nlinarith [hxvlb, hxub, h1]
          have hxv_eq : val (FP.ofNat xp) = (xp:ℚ) := val_ofNat_exact hxp_small
          have hxp_lb : 255 < xp := by
            rw [val_Tf_two, hxv_eq] at hxgt
            exact_mod_cast hxgt
          have hxp474 : xp ≤ 474 := by
            have h1 : (xp:ℚ) < 475 := by
              rw [← hxv_eq]
              exact hxub
            have h2 : xp < 475 := by exact_mod_cast h1
            omega
          have hdenv : val (fsub (Tf 3) (Tf 2)) = 220 := by
            rw [hden_eq, val_Tf_three, val_Tf_two]
            rw [show (475:ℚ) - 255 = 220 by norm_num]
            exact round64Q_eq_self ⟨220, 0, by norm_num, by norm_num⟩
          have hnumv : val (fsub (FP.ofNat xp) (Tf 2)) ≤ 219 := by
            rw [hnum_eq, val_Tf_two, hxv_eq]
            rw [show (xp:ℚ) - 255 = ((xp - 255 : ℕ):ℚ) by
              rw [Nat.cast_sub (by omega)]
              norm_num]
            rw [round64Q_natCast (by omega)]
            exact_mod_cast (by omega : xp - 255 ≤ 219)
          rw [hdenv]
          linarith
      · have h35 := Tf_ratio_35 n hL3 (by omega)
        have hlast_pos : 0 < val (Tf n) := by
          have h1 := le_Tf n (by omega)
          have h2 : (0:ℚ) < specThreshold n := by
            rw [spec_eq]
            have hx3 : (3:ℚ) ≤ (n:ℚ) := by exact_mod_cast hL3
            nlinarith [hx3]
          nlinarith [h1, h2]
        rw [eps53] at hnum_ub hden_lb hgap
        linarith [hnum_ub, hden_lb, hgap, h35, hlast_pos, hxgt, hlastlt]
    have hq0 : 0 < val (fsub (FP.ofNat xp) (Tf n)) / val (fsub (Tf (n+1)) (Tf n)) :=
      div_pos hpos hden0
    have hr_eq : val (fdiv (fsub (FP.ofNat xp) (Tf n)) (fsub (Tf (n+1)) (Tf n)))
        = round64Q (val (fsub (FP.ofNat xp) (Tf n)) / val (fsub (Tf (n+1)) (Tf n))) :=
      val_fdiv _ _
    have hrlt1 : val (fdiv (fsub (FP.ofNat xp) (Tf n)) (fsub (Tf (n+1)) (Tf n))) < 1 := by
      rw [hr_eq]
      exact round64Q_lt_one hq0 hkey
    have hr0 : 0 < val (fdiv (fsub (FP.ofNat xp) (Tf n)) (fsub (Tf (n+1)) (Tf n))) := by
      rw [hr_eq, round64Q_of_pos hq0]
      exact roundPosQ_pos _ hq0
    have hrep_r : Rep53 (val (fdiv (fsub (FP.ofNat xp) (Tf n)) (fsub (Tf (n+1)) (Tf n)))) := by
      rw [hr_eq]
      exact rep_round64Q _
    have hone_rep : Rep53 (1:ℚ) := ⟨1, 0, by norm_num, by norm_num⟩
    have hgap1 := rep_gap hrep_r hone_rep hr0 hrlt1
    have hr100 : val (fdiv (fsub (FP.ofNat xp) (Tf n)) (fsub (Tf (n+1)) (Tf n))) * 100
        ≤ 100 * 2^53/(2^53+1) := by
      rw [le_div_iff (show (0:ℚ) < 2^53+1 by norm_num)]
      rw [eps53] at hgap1
      linarith
    have hp_eq : val (fmul (fdiv (fsub (FP.ofNat xp) (Tf n)) (fsub (Tf (n+1)) (Tf n))) ⟨100,0⟩)
        = round64Q (val (fdiv (fsub (FP.ofNat xp) (Tf n)) (fsub (Tf (n+1)) (Tf n))) * 100) := by
      rw [val_fmul, hval100]
    have hp0 : 0 ≤ val (fmul (fdiv (fsub (FP.ofNat xp) (Tf n)) (fsub (Tf (n+1)) (Tf n))) ⟨100,0⟩) := by
      rw [hp_eq]
      exact round64Q_nonneg (mul_nonneg (le_of_lt hr0) (by norm_num))
    have hp100_le : val (fmul (fdiv (fsub (FP.ofNat xp) (Tf n)) (fsub (Tf (n+1)) (Tf n))) ⟨100,0⟩)
        ≤ round64Q ((100 * 2^53 : ℚ)/(2^53+1)) := by
      rw [hp_eq]
      exact round64Q_mono (mul_nonneg (le_of_lt hr0) (by norm_num)) hr100
    have hfin : round64Q ((100 * 2^53 : ℚ)/(2^53+1)) < 100 := by
      have h1 : ((100 * 2^53 : ℚ)/(2^53+1))
          = val (⟨900719925474099200, 0⟩ : FP) / val (⟨9007199254740993, 0⟩ : FP) := by
        unfold val
        norm_num
      rw [h1, ← val_fdiv]
      rw [show fdiv ⟨900719925474099200, 0⟩ ⟨9007199254740993, 0⟩
          = (⟨7036874417766399, -46⟩ : FP) by decide]
      unfold val
      norm_num
    exact ⟨hp0, lt_of_le_of_lt hp100_le hfin⟩

/-- The percentage field of the result, unfolded. -/
theorem new_pct_def (xp : ℕ) :
    (LevelInfo.new xp).percentage
      = FP.toU8 (fmul (fdiv (fsub (FP.ofNat xp) (Tf (LevelInfo.new xp).level))
          (fsub (Tf ((LevelInfo.new xp).level + 1)) (Tf (LevelInfo.new xp).level))) ⟨100, 0⟩) :=
  rfl

theorem Tf_level_cap : (2:ℚ)^64 < val (Tf 2228553) := by
  rw [show Tf 2228553 = (⟨4503605425133571, 12⟩ : FP) by decide]
  unfold val
  norm_num

theorem new_level_le (xp : ℕ) (h : xp < 2^64) : (LevelInfo.new xp).level ≤ 2228552 := by
  by_contra hc
  push_neg at hc
  have h1 := (new_level_spec xp h).1 2228553 (by omega)
  have h3 := xpF_le_pow64 xp h
  linarith [Tf_level_cap]

theorem new_pct_val_bounds (xp : ℕ) (h : xp < 2^64) :
    0 ≤ val (fmul (fdiv (fsub (FP.ofNat xp) (Tf (LevelInfo.new xp).level))
        (fsub (Tf ((LevelInfo.new xp).level + 1)) (Tf (LevelInfo.new xp).level))) ⟨100, 0⟩) ∧
    val (fmul (fdiv (fsub (FP.ofNat xp) (Tf (LevelInfo.new xp).level))
        (fsub (Tf ((LevelInfo.new xp).level + 1)) (Tf (LevelInfo.new xp).level))) ⟨100, 0⟩) < 100 := by
  obtain ⟨hlow, hhigh⟩ := new_level_spec xp h
  exact pct_bounds_aux xp (LevelInfo.new xp).level (hlow _ le_rfl) hhigh (new_level_le xp h)

theorem new_pct_le_99 (xp : ℕ) (h : xp < 2^64) : (LevelInfo.new xp).percentage ≤ 99 := by
  obtain ⟨hp0, hlt⟩ := new_pct_val_bounds xp h
  rw [new_pct_def, toU8_val]
  rw [if_neg (not_lt.mpr hp0), if_neg (by linarith : ¬ (256:ℚ) ≤ _)]
  have h1 : (0:ℤ) ≤ ⌊val (fmul (fdiv (fsub (FP.ofNat xp) (Tf (LevelInfo.new xp).level))
      (fsub (Tf ((LevelInfo.new xp).level + 1)) (Tf (LevelInfo.new xp).level))) ⟨100, 0⟩)⌋ :=
    Int.floor_nonneg.mpr hp0
  have h2 : ⌊val (fmul (fdiv (fsub (FP.ofNat xp) (Tf (LevelInfo.new xp).level))
      (fsub (Tf ((LevelInfo.new xp).level + 1)) (Tf (LevelInfo.new xp).level))) ⟨100, 0⟩)⌋
      < (100:ℤ) := by
    rw [Int.floor_lt]
    exact_mod_cast hlt
  omega

theorem new_pct_eq_floor (xp : ℕ) (h : xp < 2^64) :
    ((LevelInfo.new xp).percentage : ℤ)
      = ⌊val (fmul (fdiv (fsub (FP.ofNat xp) (Tf (LevelInfo.new xp).level))
          (fsub (Tf ((LevelInfo.new xp).level + 1)) (Tf (LevelInfo.new xp).level))) ⟨100, 0⟩)⌋ := by
  obtain ⟨hp0, hlt⟩ := new_pct_val_bounds xp h
  rw [new_pct_def, toU8_val]
  rw [if_neg (not_lt.mpr hp0), if_neg (by linarith : ¬ (256:ℚ) ≤ _)]
  exact Int.toNat_of_nonneg (Int.floor_nonneg.mpr hp0)

/-! ## Monotonicity and determinism of the result -/

theorem ofNat_val_mono {x1 x2 : ℕ} (h : x1 ≤ x2) :
    val (FP.ofNat x1) ≤ val (FP.ofNat x2) := by
  rw [val_ofNat, val_ofNat]
  exact round64Q_mono (by positivity) (by exact_mod_cast h)

theorem new_level_mono (x1 x2 : ℕ) (h12 : x1 ≤ x2) (h2 : x2 < 2^64) :
    (LevelInfo.new x1).level ≤ (LevelInfo.new x2).level := by
  have h1 : x1 < 2^64 := Nat.lt_of_le_of_lt h12 h2
  by_contra hc
  push_neg at hc
  have ha := (new_level_spec x1 h1).1 ((LevelInfo.new x2).level + 1) (by omega)
  have hb := (new_level_spec x2 h2).2
  have hmono := ofNat_val_mono h12
  linarith

/-- The loop's branch condition compares values, so two inputs denoting
the same f64 value drive the loop identically (the input record is only
ever read through the comparison `FP.le testxp xpF`). -/
theorem levelLoop_val_congr (a b : FP) (hv : val a = val b) :
    ∀ fuel lv t, levelLoop a fuel lv t = levelLoop b fuel lv t := by
  intro fuel
  induction fuel with
  | zero =>
    intro lv t
    rfl
  | succ f ih =>
    intro lv t
    show (if FP.le t a then levelLoop a f (lv+1) (LevelInfo.xp_to_level (FP.ofNat (lv+1)))
          else some lv)
        = (if FP.le t b then levelLoop b f (lv+1) (LevelInfo.xp_to_level (FP.ofNat (lv+1)))
          else some lv)
    by_cases h : FP.le t a
    · have h2 : FP.le t b := by
        rw [le_iff_val] at h ⊢
        rw [← hv]
        exact h
      rw [if_pos h, if_pos h2]
      exact ih _ _
    · have h2 : ¬ FP.le t b := by
        rw [le_iff_val] at h ⊢
        rw [← hv]
        exact h
      rw [if_neg h, if_neg h2]

theorem new_level_f64 (x1 x2 : ℕ) (hv : val (FP.ofNat x1) = val (FP.ofNat x2)) :
    (LevelInfo.new x1).level = (LevelInfo.new x2).level := by
  show (levelLoop (FP.ofNat x1) FUEL 0 ⟨0, 0⟩).getD 1 - 1
      = (levelLoop (FP.ofNat x2) FUEL 0 ⟨0, 0⟩).getD 1 - 1
  rw [levelLoop_val_congr (FP.ofNat x1) (FP.ofNat x2) hv FUEL 0 ⟨0, 0⟩]

theorem new_pct_f64 (x1 x2 : ℕ) (hv : val (FP.ofNat x1) = val (FP.ofNat x2)) :
    (LevelInfo.new x1).percentage = (LevelInfo.new x2).percentage := by
  rw [new_pct_def, new_pct_def, new_level_f64 x1 x2 hv]
  have h1 : val (fsub (FP.ofNat x1) (Tf (LevelInfo.new x2).level))
      = val (fsub (FP.ofNat x2) (Tf (LevelInfo.new x2).level)) := by
    rw [val_fsub, val_fsub, hv]
  have h2 : val (fdiv (fsub (FP.ofNat x1) (Tf (LevelInfo.new x2).level))
        (fsub (Tf ((LevelInfo.new x2).level + 1)) (Tf (LevelInfo.new x2).level)))
      = val (fdiv (fsub (FP.ofNat x2) (Tf (LevelInfo.new x2).level))
        (fsub (Tf ((LevelInfo.new x2).level + 1)) (Tf (LevelInfo.new x2).level))) := by
    rw [val_fdiv, val_fdiv, h1]
  have h3 : val (fmul (fdiv (fsub (FP.ofNat x1) (Tf (LevelInfo.new x2).level))
        (fsub (Tf ((LevelInfo.new x2).level + 1)) (Tf (LevelInfo.new x2).level))) ⟨100, 0⟩)
      = val (fmul (fdiv (fsub (FP.ofNat x2) (Tf (LevelInfo.new x2).level))
        (fsub (Tf ((LevelInfo.new x2).level + 1)) (Tf (LevelInfo.new x2).level))) ⟨100, 0⟩) := by
    rw [val_fmul, val_fmul, h2]
  rw [toU8_val, toU8_val, h3]

/-- Tf is monotone nondecreasing on all of ℕ (no range restriction):
this is FP-level monotonicity of the rounded computation. -/
theorem Tf_mono (l1 l2 : ℕ) (h : l1 ≤ l2) : val (Tf l1) ≤ val (Tf l2) := by
  have h0 : 0 ≤ val (FP.ofNat l1) := by
    rw [val_ofNat]
    exact round64Q_nonneg (by positivity)
  exact xp_to_level_mono h0 (ofNat_val_mono h)

theorem Tf_nonneg (l : ℕ) : 0 ≤ val (Tf l) := by
  apply xp_to_level_nonneg
  rw [val_ofNat]
  exact round64Q_nonneg (by positivity)

/-! ## Claims

Each claim of the specification is settled by one theorem below.  The
threshold function the spec names in section 4.1 is the exact rational
curve `specThreshold`; the program computes its binary64 rounding
`Tf` and compares the binary64 conversion of the input against it. -/

/-- C1 (original, refuted): at input 5775 the computed level is 10, but
the exact spec threshold of level 11 is 5775 itself, so
`threshold(L+1) > xp` fails: the f64 value of the level-11 threshold is
a hair above the exact value 5775, so the loop stops one level early
relative to the exact curve. -/
theorem C1_counterexample :
    (LevelInfo.new 5775).level = 10 ∧ ¬ ((5775:ℚ) < specThreshold (10 + 1)) := by
  constructor
  · decide
  · rw [spec_eq]
    norm_num

/-- C1 (amended): for every u64 input, the computed level L brackets the
f64-converted input between the f64-computed thresholds:
`Tf(L) <= (f64) xp < Tf(L+1)`.  The exact-curve version of the claim is
refuted by `xp = 5775` where rounding makes `Tf(11)` exceed 5775. -/
theorem C1_level_bracketing (xp : ℕ) (h : xp < 2^64) :
    val (Tf (LevelInfo.new xp).level) ≤ val (FP.ofNat xp) ∧
    val (FP.ofNat xp) < val (Tf ((LevelInfo.new xp).level + 1)) := by
  obtain ⟨hlow, hhigh⟩ := new_level_spec xp h
  exact ⟨hlow _ le_rfl, hhigh⟩

/-- C1 witness at input 1000. -/
theorem C1_level_bracketing_witness :
    (1000 < 2^64) ∧
    (val (Tf (LevelInfo.new 1000).level) ≤ val (FP.ofNat 1000) ∧
     val (FP.ofNat 1000) < val (Tf ((LevelInfo.new 1000).level + 1))) :=
  ⟨by norm_num, C1_level_bracketing 1000 (by norm_num)⟩

/-- C2: for every u64 input the percentage field lies in [0, 99]; the
value 100 is never produced. -/
theorem C2_percentage_range (xp : ℕ) (h : xp < 2^64) :
    0 ≤ (LevelInfo.new xp).percentage ∧ (LevelInfo.new xp).percentage ≤ 99 :=
  ⟨Nat.zero_le _, new_pct_le_99 xp h⟩

/-- C2 witness at input 42. -/
theorem C2_percentage_range_witness :
    (42 < 2^64) ∧
    (0 ≤ (LevelInfo.new 42).percentage ∧ (LevelInfo.new 42).percentage ≤ 99) :=
  ⟨by norm_num, C2_percentage_range 42 (by norm_num)⟩

/-- C3: the percentage equals the floor of the floating-point value
`((xp - threshold(L)) / (threshold(L+1) - threshold(L))) * 100`, where
every operation is a binary64 operation; the value is nonnegative, so
truncation toward zero agrees with the floor. -/
theorem C3_percentage_formula (xp : ℕ) (h : xp < 2^64) :
    ((LevelInfo.new xp).percentage : ℤ)
      = ⌊val (fmul (fdiv (fsub (FP.ofNat xp) (Tf (LevelInfo.new xp).level))
          (fsub (Tf ((LevelInfo.new xp).level + 1)) (Tf (LevelInfo.new xp).level))) ⟨100, 0⟩)⌋ :=
  new_pct_eq_floor xp h

/-- C3 witness at input 3. -/
theorem C3_percentage_formula_witness :
    (3 < 2^64) ∧
    ((LevelInfo.new 3).percentage : ℤ)
      = ⌊val (fmul (fdiv (fsub (FP.ofNat 3) (Tf (LevelInfo.new 3).level))
          (fsub (Tf ((LevelInfo.new 3).level + 1)) (Tf (LevelInfo.new 3).level))) ⟨100, 0⟩)⌋ :=
  ⟨by norm_num, C3_percentage_formula 3 (by norm_num)⟩

/-- C5: the computed level is monotone in the input XP. -/
theorem C5_level_monotone (x1 x2 : ℕ) (h12 : x1 ≤ x2) (h2 : x2 < 2^64) :
    (LevelInfo.new x1).level ≤ (LevelInfo.new x2).level :=
  new_level_mono x1 x2 h12 h2

/-- C5 witness at inputs 3 and 500. -/
theorem C5_level_monotone_witness :
    (3 ≤ 500 ∧ 500 < 2^64) ∧
    (LevelInfo.new 3).level ≤ (LevelInfo.new 500).level :=
  ⟨⟨by norm_num, by norm_num⟩, C5_level_monotone 3 500 (by norm_num) (by norm_num)⟩

/-- C6: the forward search terminates for every u64 input: within the
fuel bound (which exceeds every reachable level) the loop returns a
level E whose f64 threshold strictly exceeds the f64 input. -/
theorem C6_loop_terminates (xp : ℕ) (h : xp < 2^64) :
    ∃ E, levelLoop (FP.ofNat xp) FUEL 0 ⟨0, 0⟩ = some E ∧
      val (FP.ofNat xp) < val (Tf E) := by
  obtain ⟨E, hE⟩ := Option.isSome_iff_exists.mp (new_isSome xp h)
  have hE' : levelLoop (FP.ofNat xp) FUEL 0 (Tf 0) = some E := by
    rw [Tf_zero]
    exact hE
  exact ⟨E, hE, (levelLoop_sound (FP.ofNat xp) FUEL 0 E hE').2.1⟩

/-- C6 witness at input 0. -/
theorem C6_loop_terminates_witness :
    (0 < 2^64) ∧
    ∃ E, levelLoop (FP.ofNat 0) FUEL 0 ⟨0, 0⟩ = some E ∧
      val (FP.ofNat 0) < val (Tf E) :=
  ⟨by norm_num, C6_loop_terminates 0 (by norm_num)⟩

/-- C7 (original, refuted): the f64 threshold function does not satisfy
the exact formula: at level 11 the computed value differs from the
exact value 5775 (it is 5775 + 2^-40). -/
theorem C7_counterexample : val (Tf 11) ≠ specThreshold 11 := by
  rw [show Tf 11 = (⟨6349679650406401, -40⟩ : FP) by decide, spec_eq]
  unfold val
  norm_num

/-- C7 (amended): the threshold function the program computes is zero at
level 0, nonnegative everywhere, monotone nondecreasing everywhere, and
on the whole u64-relevant range (levels up to 10^7, while u64 inputs
only reach level 2228552) it equals the exact formula
(5/6)*l*(2*l^2+27*l+91) up to relative error 2^-50 and is strictly
increasing from level 1 on.  Exact equality with the formula fails
(counterexample at level 11). -/
theorem C7_threshold_function :
    val (Tf 0) = 0 ∧
    (∀ l : ℕ, 0 ≤ val (Tf l)) ∧
    (∀ l1 l2 : ℕ, l1 ≤ l2 → val (Tf l1) ≤ val (Tf l2)) ∧
    (∀ l : ℕ, l ≤ 10^7 →
      specThreshold l * (1 - (1:ℚ)/2^50) ≤ val (Tf l) ∧
      val (Tf l) ≤ specThreshold l * (1 + (1:ℚ)/2^50)) ∧
    (∀ l1 l2 : ℕ, 1 ≤ l1 → l1 < l2 → l2 ≤ 10^7 → val (Tf l1) < val (Tf l2)) :=
  ⟨val_Tf_zero, Tf_nonneg, Tf_mono,
   fun l h => ⟨le_Tf l h, Tf_le l h⟩,
   Tf_strict_mono⟩

/-- C7 witness: the bounded parts instantiated at concrete levels. -/
theorem C7_threshold_function_witness :
    0 ≤ val (Tf 7) ∧ val (Tf 3) ≤ val (Tf 9) ∧
    (specThreshold 2 * (1 - (1:ℚ)/2^50) ≤ val (Tf 2) ∧
     val (Tf 2) ≤ specThreshold 2 * (1 + (1:ℚ)/2^50)) ∧
    val (Tf 1) < val (Tf 4) :=
  ⟨C7_threshold_function.2.1 7,
   C7_threshold_function.2.2.1 3 9 (by norm_num),
   C7_threshold_function.2.2.2.1 2 (by norm_num),
   C7_threshold_function.2.2.2.2 1 4 (by norm_num) (by norm_num) (by norm_num)⟩

/-- C8: regression anchor: input 3255 yields xp 3255, level 8,
percentage 43. -/
theorem C8_regression_anchor : LevelInfo.new 3255 = ⟨3255, 8, 43⟩ := by decide

/-- C9: the xp field of the result is the input, unchanged. -/
theorem C9_xp_identity (x : ℕ) : (LevelInfo.new x).xp = x := rfl

/-- C10: the level and percentage depend on the input only through its
f64 conversion: inputs whose f64 conversions have equal values (which
exist above 2^53) give equal levels and equal percentages. -/
theorem C10_f64_determinism (x1 x2 : ℕ)
    (hv : val (FP.ofNat x1) = val (FP.ofNat x2)) :
    (LevelInfo.new x1).level = (LevelInfo.new x2).level ∧
    (LevelInfo.new x1).percentage = (LevelInfo.new x2).percentage :=
  ⟨new_level_f64 x1 x2 hv, new_pct_f64 x1 x2 hv⟩

/-- C10 witness: 2^54 - 1 and 2^54 convert to the same f64 value 2^54
(the former is a tie rounded to even). -/
theorem C10_f64_determinism_witness :
    val (FP.ofNat (2^54 - 1)) = val (FP.ofNat (2^54)) ∧
    ((LevelInfo.new (2^54 - 1)).level = (LevelInfo.new (2^54)).level ∧
     (LevelInfo.new (2^54 - 1)).percentage = (LevelInfo.new (2^54)).percentage) := by
  have hv : val (FP.ofNat (2^54 - 1)) = val (FP.ofNat (2^54)) := by
    rw [show FP.ofNat (2^54 - 1) = (⟨9007199254740992, 1⟩ : FP) by decide,
        show FP.ofNat (2^54) = (⟨4503599627370496, 2⟩ : FP) by decide]
    unfold val
    norm_num
  exact ⟨hv, C10_f64_determinism (2^54 - 1) (2^54) hv⟩
